import Mathlib

/-!
# Verification of the agent turn runtime

A shallow embedding, in Lean 4, of the core of the `agent-sea` engine:
the tool-governance policy (`pkg/engine/policy/policy.go`), workspace
path resolution (`pkg/engine/tools/path.go`), the turn runner and engine
(`pkg/engine/runtime/turn_runner.go`, `engine.go`), the history
compressor and the skill router (`pkg/engine/runtime`).

Go strings are modelled by Lean `String`; Go maps by association lists
with first-match lookup; Go `int`/`int64` by `Int` or `Nat` where
overflow cannot occur; external collaborators (the LLM, the JSON
decoder, the regexp engine, the filesystem) are explicit parameters.
`strings.ToLower` / `strings.TrimSpace` / `strings.Fields` are modelled
for ASCII case and ASCII whitespace, which covers every string the
engine compares (skill names are constrained to `[a-z0-9-]`).
-/

namespace AgentSea

/-- ASCII lowercasing of one character (models Go `strings.ToLower` on
the ASCII range; other characters pass through unchanged). -/
def asciiLower (c : Char) : Char :=
  if 'A' ≤ c ∧ c ≤ 'Z' then Char.ofNat (c.toNat + 32) else c

/-- Go whitespace test restricted to ASCII space characters. -/
def isSpaceGo (c : Char) : Bool :=
  c = ' ' || c = '\t' || c = '\n' || c = '\r'

/-- Models Go `strings.TrimSpace` (ASCII whitespace). -/
def trimGo (s : String) : String :=
  String.mk ((((s.toList.dropWhile (fun c => isSpaceGo c)).reverse).dropWhile
    (fun c => isSpaceGo c)).reverse)

/-- Tests whether `sub` occurs as a contiguous run inside `l`. -/
def listInfix (sub : List Char) : List Char → Bool
  | [] => sub.isEmpty
  | c :: rest => sub.isPrefixOf (c :: rest) || listInfix sub rest

/-- Models Go `strings.Contains`: `sub` occurs inside `s`. -/
def strContains (s sub : String) : Bool :=
  listInfix sub.toList s.toList

/-- Models Go `strings.HasPrefix`. -/
def strStartsWith (s pre : String) : Bool :=
  pre.toList.isPrefixOf s.toList

/-- Fold step collecting maximal runs of non-space characters. -/
def fieldsStep (c : Char) (acc : List (List Char)) : List (List Char) :=
  if isSpaceGo c then [] :: acc
  else match acc with
    | [] => [[c]]
    | w :: ws => (c :: w) :: ws

/-- Models Go `strings.Fields` (split around ASCII whitespace). -/
def fieldsGo (s : String) : List String :=
  ((s.toList.foldr fieldsStep []).filter (fun w => w ≠ [])).map String.mk

/-- JSON-like dynamic value, modelling Go `any` as stored in tool
arguments. -/
inductive JVal where
  | str (s : String)
  | int (n : Int)
  | bool (b : Bool)
  | null
  | arr (xs : List JVal)
  | obj (kvs : List (String × JVal))

/-- Go `api.Args = map[string]any`, modelled as an association list with
first-match lookup. -/
def Args := List (String × JVal)

/-- Map lookup (`args[k]`). -/
def findArg : Args → String → Option JVal
  | [], _ => none
  | (k, v) :: rest, key => if k = key then some v else findArg rest key

/-- Map update (`args[k] = v`): replaces the first binding of the key or
appends a new one. -/
def setArg : Args → String → JVal → Args
  | [], key, v => [(key, v)]
  | (k, w) :: rest, key, v =>
      if k = key then (key, v) :: rest else (k, w) :: setArg rest key v

theorem findArg_setArg (l : Args) (key k' : String) (v : JVal) :
    findArg (setArg l key v) k' = if k' = key then some v else findArg l k' := by
  induction l with
  | nil =>
      simp only [setArg, findArg]
      by_cases h : k' = key
      · subst h; simp
      · rw [if_neg (fun hh => h hh.symm), if_neg h]
  | cons hd tl ih =>
      obtain ⟨k, w⟩ := hd
      simp only [setArg]
      by_cases hk : k = key
      · subst hk
        simp only [if_pos rfl, findArg]
        by_cases h : k' = k
        · subst h; simp
        · rw [if_neg (fun hh => h hh.symm), if_neg h, if_neg (fun hh => h hh.symm)]
      · rw [if_neg hk]
        simp only [findArg]
        by_cases hkk : k = k'
        · subst hkk
          rw [if_pos rfl, if_neg (fun hh => hk hh), if_pos rfl]
        · rw [if_neg hkk, ih]
          by_cases h : k' = key
          · simp [h]
          · rw [if_neg h, if_neg h, if_neg hkk]

-- ━━━━━━━━━━━━━━━━━━━━━━━━━━━━━━━━━━━━━━━━━━━━━
-- Policy engine (pkg/engine/policy/policy.go) and api constants
-- ━━━━━━━━━━━━━━━━━━━━━━━━━━━━━━━━━━━━━━━━━━━━━

/-- Embeds `api.ApprovalMode` values. -/
def ModeSuggest : String := "suggest"

def ModeAuto : String := "auto"

def ModeFullAuto : String := "full-auto"

/-- Embeds `api.RiskLevel` values. -/
def RiskNone : String := "none"

def RiskLow : String := "low"

def RiskHigh : String := "high"

/-- Standard error codes (`api/events.go`). -/
def ErrInvalidSession : String := "invalid_session"

def ErrTurnInProgress : String := "turn_in_progress"

def ErrNoPendingApproval : String := "no_pending_approval"

def ErrApprovalMismatch : String := "approval_mismatch"

def ErrToolNotFound : String := "tool_not_found"

def ErrToolArgsInvalid : String := "tool_args_invalid"

def ErrPolicyDenied : String := "policy_denied"

def ErrWorkspaceEscape : String := "workspace_escape"

def ErrToolExecuteFailed : String := "tool_execute_failed"

def ErrStoreError : String := "store_error"

/-- Embeds `api.SystemToolAllowlist` (part_011): tools that bypass skill
allowed-tools restrictions. -/
def SystemToolAllowlist : List String :=
  ["list_skills", "read_skill", "activate_skill", "read_memory",
   "update_memory", "read_todos", "write_todos", "understand_intent"]

/-- Embeds `api.IsSystemTool`. -/
def IsSystemTool (name : String) : Bool :=
  SystemToolAllowlist.contains name

/-- The policy view of a tool: its name, and its declared risk level when
the tool implements `ToolWithMeta` (`none` models a tool without
metadata). -/
structure PolicyTool where
  name : String
  risk : Option String
deriving DecidableEq, Repr

/-- Embeds `policy.DefaultPolicy`. -/
structure DefaultPolicy where
  DangerousCommands : List String
deriving DecidableEq, Repr

/-- Embeds `policy.NewDefaultPolicy`: the explicit dangerous-command deny list. -/
def NewDefaultPolicy : DefaultPolicy :=
  { DangerousCommands :=
      ["rm ", "rm\t", "rmdir",
       "sudo ", "chmod ", "chown ",
       "mv ", "cp -r",
       "> ", ">>",
       "curl ", "wget ",
       "git push", "git reset --hard"] }

/-- The `tm.Risk() == api.RiskHigh` check guarded by the
`tool.(ToolWithMeta)` type assertion. -/
def riskIsHigh (r : Option String) : Bool :=
  match r with
  | some v => v == RiskHigh
  | none => false

/-- The dangerous-pattern scan over `args["command"].(string)` in
`needApprovalAuto`. -/
def commandHasDangerous (p : DefaultPolicy) (args : Args) : Bool :=
  match findArg args "command" with
  | some (JVal.str command) =>
      p.DangerousCommands.any (fun pat => strContains command pat)
  | _ => false

/-- The `highRiskTools` write-oriented set in `needApprovalAuto`. -/
def highRiskToolsLookup (n : String) : Bool :=
  n == "write_file" || n == "edit_file" || n == "delete_file" ||
  n == "shell" || n == "run_command" || n == "run_skill_script"

/-- Embeds `DefaultPolicy.needApprovalAuto`: approval logic for `ModeAuto`.
The Go early returns compose as boolean disjunction. -/
def needApprovalAuto (p : DefaultPolicy) (tool : PolicyTool) (args : Args) : Bool :=
  (tool.name == "write_todos" || tool.name == "update_memory") ||
  riskIsHigh tool.risk ||
  ((tool.name == "shell" || tool.name == "run_command") && commandHasDangerous p args) ||
  highRiskToolsLookup tool.name

/-- Embeds `DefaultPolicy.NeedApproval`: the Go `switch` sends `ModeSuggest` to
`true`, `ModeFullAuto` to `false`, and everything else (including
`ModeAuto`, via `fallthrough`/`default`) to `needApprovalAuto`. -/
def NeedApproval (p : DefaultPolicy) (mode : String) (tool : PolicyTool) (args : Args) : Bool :=
  if mode = ModeSuggest then true
  else if mode = ModeFullAuto then false
  else needApprovalAuto p tool args

-- ━━━━━━━━━━━━━━━━━━━━━━━━━━━━━━━━━━━━━━━━━━━━━
-- Argument preparation (turn_runner.go, prepareExecArgs)
-- ━━━━━━━━━━━━━━━━━━━━━━━━━━━━━━━━━━━━━━━━━━━━━

/-- Embeds `TurnRunner.prepareExecArgs`: plan tools get `session_id`, the
skill-script runner gets `_active_skill`; all other tools pass through. -/
def prepareExecArgs (sessionID activeSkill : String) (toolName : String) (args : Args) : Args :=
  if toolName = "read_todos" ∨ toolName = "write_todos" then
    setArg args "session_id" (JVal.str sessionID)
  else if toolName = "run_skill_script" then
    setArg args "_active_skill" (JVal.str activeSkill)
  else args

-- ━━━━━━━━━━━━━━━━━━━━━━━━━━━━━━━━━━━━━━━━━━━━━
-- Lexical path handling (Go path/filepath, Unix flavour)
-- ━━━━━━━━━━━━━━━━━━━━━━━━━━━━━━━━━━━━━━━━━━━━━

/-- Embeds `filepath.IsAbs` (Unix): the path starts with a slash. -/
def isAbsGo (s : String) : Bool :=
  strStartsWith s "/"

/-- Split a character list at every slash (the components of a path,
empty components included, like `strings.Split(s, "/")`). -/
def splitSlashCh : List Char → List (List Char)
  | [] => [[]]
  | c :: rest =>
      let r := splitSlashCh rest
      if c = '/' then [] :: r
      else
        match r with
        | [] => [[c]]
        | w :: ws => (c :: w) :: ws

/-- Path components of a string, as strings. -/
def splitSlash (s : String) : List String :=
  (splitSlashCh s.toList).map String.mk

/-- Join components with slashes (no leading slash). -/
def joinSlash : List String → String
  | [] => ""
  | [c] => c
  | c :: rest => c ++ "/" ++ joinSlash rest

/-- One step of `filepath.Clean`'s element processing: drop empty and
`.` elements; `..` pops the last kept element (kept literally when a
relative path has nothing left to pop). -/
def cleanStep (rooted : Bool) (acc : List String) (c : String) : List String :=
  if c = "" ∨ c = "." then acc
  else if c = ".." then
    if rooted then acc.dropLast
    else
      match acc.getLast? with
      | none => [".."]
      | some last => if last = ".." then acc ++ [".."] else acc.dropLast
  else acc ++ [c]

/-- Embeds `filepath.Clean` (Unix): lexical normalisation. -/
def cleanPath (s : String) : String :=
  if s = "" then "."
  else
    let rooted := isAbsGo s
    let comps := (splitSlash s).foldl (cleanStep rooted) []
    if rooted then "/" ++ joinSlash comps
    else if comps = [] then "." else joinSlash comps

/-- Embeds `filepath.Join(a, b)` (Unix): skip empty parts, then `Clean`. -/
def joinGo (a b : String) : String :=
  if a = "" then (if b = "" then "" else cleanPath b)
  else cleanPath (a ++ "/" ++ b)

/-- Embeds `filepath.Abs` relative to an (absolute) working directory `cwd`:
absolute paths are cleaned, relative ones joined onto `cwd`. -/
def absGo (cwd p : String) : String :=
  if isAbsGo p then cleanPath p else joinGo cwd p

/-- Embeds `filepath.Dir`: everything up to the final slash, cleaned; `"."`
when there is no slash. -/
def dirGo (p : String) : String :=
  let pre := (p.toList.reverse.dropWhile (fun c => ¬ (c = '/'))).reverse
  if pre = [] then "." else cleanPath (String.mk pre)

/-- Length of the common component prefix of two component lists. -/
def countCommon : List String → List String → Nat
  | a :: as, b :: bs => if a = b then 1 + countCommon as bs else 0
  | _, _ => 0

/-- Embeds `filepath.Rel(base, target)` for the cases the engine exercises
(both cleaned, same absoluteness, base free of `..`); `none` models the
error return. -/
def relGo (base target : String) : Option String :=
  let b := cleanPath base
  let t := cleanPath target
  if isAbsGo b ≠ isAbsGo t then none
  else
    let bc := (splitSlash b).filter (fun c => c ≠ "" ∧ c ≠ ".")
    let tc := (splitSlash t).filter (fun c => c ≠ "" ∧ c ≠ ".")
    if bc.contains ".." then none
    else
      let common := countCommon bc tc
      let parts := List.replicate (bc.length - common) ".." ++ tc.drop common
      if parts = [] then some "." else some (joinSlash parts)

/-- Embeds `tools.pathWithinRoot`: `filepath.Rel` must neither fail nor start
with `..`. -/
def pathWithinRoot (root target : String) : Bool :=
  match relGo (cleanPath root) (cleanPath target) with
  | none => false
  | some rel => ¬ (rel = ".." || strStartsWith rel "../")

-- ━━━━━━━━━━━━━━━━━━━━━━━━━━━━━━━━━━━━━━━━━━━━━
-- Filesystem model and resolvePathInWorkspace (tools/path.go)
-- ━━━━━━━━━━━━━━━━━━━━━━━━━━━━━━━━━━━━━━━━━━━━━

/-- A filesystem node: regular file, directory, or symbolic link. -/
inductive FSNode where
  | file
  | dir
  | symlink (target : String)

/-- A filesystem: finitely many entries keyed by cleaned absolute path.
The root `/` always exists implicitly. `os.Lstat` succeeds exactly on
listed paths. -/
def FS := List (String × FSNode)

/-- Lstat-like lookup (no resolution of the final component). -/
def fsLookup : FS → String → Option FSNode
  | [], _ => none
  | (p, n) :: rest, q => if p = q then some n else fsLookup rest q

/-- Non-empty components of a cleaned absolute path. -/
def pathComps (p : String) : List String :=
  (splitSlash (cleanPath p)).filter (fun c => c ≠ "")

/-- Append one component below an absolute path. -/
def childPath (acc c : String) : String :=
  if acc = "/" then "/" ++ c else acc ++ "/" ++ c

/-- Component-wise symlink resolution with a step budget, modelling
`filepath.EvalSymlinks` on absolute paths: every component must exist;
a symlink restarts resolution at its (absolutised) target. The budget
(consumed on every step, so the recursion is structural) plays the role
of Go's link-hop limit: cyclic link chains end in the same error. -/
def evalSymCore (fs : FS) (fuel : Nat) (acc : String) (comps : List String) :
    Except String String :=
  match fuel, comps with
  | _, [] => Except.ok acc
  | 0, _ :: _ => Except.error "EvalSymlinks: too many links"
  | Nat.succ fuel', c :: rest =>
      let cur := childPath acc c
      match fsLookup fs cur with
      | none => Except.error "EvalSymlinks: no such file or directory"
      | some (FSNode.symlink t) =>
          let tAbs := if isAbsGo t then cleanPath t else cleanPath (acc ++ "/" ++ t)
          evalSymCore fs fuel' "/" (pathComps tAbs ++ rest)
      | some _ => evalSymCore fs fuel' cur rest

/-- Embeds `filepath.EvalSymlinks` on a cleaned absolute path (link budget 255
as in Go). -/
def evalSymlinks (fs : FS) (p : String) : Except String String :=
  if p = "/" then Except.ok "/" else evalSymCore fs 255 "/" (pathComps p)

/-- The nearest-existing-ancestor loop of `resolvePathInWorkspace`:
walk `filepath.Dir` upward until `Lstat` succeeds or the root is
reached. -/
def nearestExisting (fs : FS) : Nat → String → String
  | 0, parent => parent
  | Nat.succ fuel, parent =>
      if (fsLookup fs parent).isSome ∨ parent = "/" then parent
      else
        let next := dirGo parent
        if next = parent then parent else nearestExisting fs fuel next

/-- Embeds `tools.resolvePathInWorkspace`: canonicalise a user path inside the
workspace, resolving symlinks of the path itself or of its nearest
existing ancestor, and reject escapes. -/
def resolvePathInWorkspace (fs : FS) (cwd workspaceRoot userPath : String) :
    Except String String :=
  let userPath := if trimGo userPath = "" then "." else userPath
  let rootAbs := cleanPath (absGo cwd workspaceRoot)
  match evalSymlinks fs rootAbs with
  | Except.error _ => Except.error "failed to resolve workspace root symlinks"
  | Except.ok rootReal0 =>
    let rootReal := cleanPath rootReal0
    let targetAbs0 := if isAbsGo userPath then cleanPath userPath
                      else cleanPath (joinGo rootAbs userPath)
    let targetAbs := cleanPath (absGo cwd targetAbs0)
    if ¬ pathWithinRoot rootAbs targetAbs then
      Except.error ("path escapes workspace: " ++ userPath)
    else
      match fsLookup fs targetAbs with
      | some _ =>
          match evalSymlinks fs targetAbs with
          | Except.error _ => Except.error "failed to resolve path symlinks"
          | Except.ok tr =>
              let targetReal := cleanPath tr
              if ¬ pathWithinRoot rootReal targetReal then
                Except.error ("path escapes workspace via symlink: " ++ userPath)
              else Except.ok targetReal
      | none =>
          let parent0 := dirGo targetAbs
          let parent := nearestExisting fs ((pathComps parent0).length + 1) parent0
          match evalSymlinks fs parent with
          | Except.error _ => Except.error "failed to resolve parent symlinks"
          | Except.ok pr =>
              let parentReal := cleanPath pr
              match relGo parent targetAbs with
              | none => Except.error "failed to compute target suffix"
              | some suffix =>
                  if suffix = ".." || strStartsWith suffix "../" then
                    Except.error ("path escapes workspace: " ++ userPath)
                  else
                    let targetReal := cleanPath (joinGo parentReal suffix)
                    if ¬ pathWithinRoot rootReal targetReal then
                      Except.error ("path escapes workspace via symlink: " ++ userPath)
                    else Except.ok targetReal

-- ━━━━━━━━━━━━━━━━━━━━━━━━━━━━━━━━━━━━━━━━━━━━━
-- Policy validation (policy.go, Validate / validatePath)
-- ━━━━━━━━━━━━━━━━━━━━━━━━━━━━━━━━━━━━━━━━━━━━━

/-- Embeds `api.PolicyContext`. -/
structure PolicyContext where
  SessionID : String := ""
  TurnID : String := ""
  ApprovalMode : String := ModeAuto
  AllowedTools : List String := []
  ToolCallOrigin : String := "model"
  WorkspaceRoot : String := ""

/-- Embeds `DefaultPolicy.validatePath`: purely lexical workspace boundary
check (`filepath.Abs` plus a string-prefix comparison; no symlink
resolution). `cwd` stands for the process working directory consulted
by `filepath.Abs`; the result is the error code, `none` meaning
accepted (the Go message text is not modelled). -/
def validatePath (cwd : String) (targetPath workspaceRoot : String) : Option String :=
  let target := if isAbsGo targetPath then targetPath else joinGo workspaceRoot targetPath
  let absPath := absGo cwd target
  let absWorkspace := absGo cwd workspaceRoot
  if ¬ strStartsWith absPath (absWorkspace ++ "/") ∧ absPath ≠ absWorkspace then
    some ErrWorkspaceEscape
  else none

/-- Embeds `DefaultPolicy.Validate`: allowed-tools constraint (system tools
exempt), then the lexical workspace boundary check when the arguments
carry a string `path` and the workspace root is non-empty. -/
def Validate (cwd : String) (pctx : PolicyContext) (tool : PolicyTool) (args : Args) :
    Option String :=
  if 0 < pctx.AllowedTools.length ∧ IsSystemTool tool.name = false ∧
      pctx.AllowedTools.contains tool.name = false then
    some ErrPolicyDenied
  else
    match findArg args "path" with
    | some (JVal.str path) =>
        if pctx.WorkspaceRoot ≠ "" then validatePath cwd path pctx.WorkspaceRoot else none
    | _ => none

-- ━━━━━━━━━━━━━━━━━━━━━━━━━━━━━━━━━━━━━━━━━━━━━
-- Runtime data model (api: messages, sessions, pending approvals)
-- ━━━━━━━━━━━━━━━━━━━━━━━━━━━━━━━━━━━━━━━━━━━━━

/-- Embeds `api.LLMToolCall`: a finalised tool call from the model, with raw
JSON argument string. -/
structure LLMToolCall where
  id : String
  name : String
  args : String
deriving DecidableEq

/-- Embeds `api.LLMMessage`. -/
structure LLMMessage where
  role : String
  content : String
  toolCalls : List LLMToolCall := []
  toolCallID : String := ""

deriving DecidableEq

/-- Embeds `api.ToolCallPayload` (the preview field is irrelevant to the
claims and omitted). -/
structure ToolCallPayload where
  ToolCallID : String
  ToolName : String
  Args : Args

/-- Embeds `api.PendingApproval` (timestamps omitted). -/
structure PendingApproval where
  TurnID : String
  RequestID : String
  ToolCall : ToolCallPayload
  StopAfter : Bool := false

/-- Embeds `api.Session` (timestamps omitted). -/
structure Session where
  SessionID : String
  ActiveSkill : String := ""
  Metadata : List (String × String) := []
  Summary : String := ""
  Messages : List LLMMessage := []
  Pending : Option PendingApproval := none

/-- Embeds `api.Decision`. -/
structure Decision where
  Kind : String
  RequestID : String
  ToolCallID : String := ""
  ModifiedArgs : Option Args := none

/-- Embeds `api.ToolResult` (the Go struct; `Data` omitted). -/
structure ToolResultGo where
  content : String := ""
  status : String
  errMsg : String := ""

/-- The runtime view of a registered tool: name, declared risk, and its
execution function (`Execute` returns a result and an error; the
error case is the `Except.error` branch). -/
structure RTool where
  name : String
  risk : Option String := some RiskNone
  execute : Args → Except String ToolResultGo

/-- Event payloads (the `api.Event` union, with the fields the claims
observe). -/
inductive EventBody where
  | delta (text source : String)
  | thinking (message : String)
  | toolCall (toolCallID toolName : String) (args : Args) (needApproval : Bool)
  | toolResult (toolCallID toolName status errMsg content : String)
  | approval (requestID toolCallID : String)
  | plan (planID toolCallID : String)
  | done (reason : String)
  | error (code message : String)

/-- A fully stamped event (version, session, turn, sequence number). -/
structure StampedEvent where
  version : Nat := 1
  sessionID : String
  turnID : String
  seq : Nat
  body : EventBody

-- ━━━━━━━━━━━━━━━━━━━━━━━━━━━━━━━━━━━━━━━━━━━━━
-- Sequence stamping (turn_runner.go: emit, Run, Resume; engine.go: Resume)
-- ━━━━━━━━━━━━━━━━━━━━━━━━━━━━━━━━━━━━━━━━━━━━━

/-- The sequencing state of a `TurnRunner`: its session, current turn
identifier, and the `seq` counter incremented under the mutex by
`emit`. -/
structure RunnerSeqState where
  sessionID : String
  turnID : String
  seq : Nat

/-- Embeds `TurnRunner.emit`: increment `seq`, then stamp version, session,
turn and sequence number onto the event. -/
def emitStamp (r : RunnerSeqState) (e : EventBody) : RunnerSeqState × StampedEvent :=
  ({ r with seq := r.seq + 1 },
   { version := 1, sessionID := r.sessionID, turnID := r.turnID, seq := r.seq + 1, body := e })

/-- Stamp a whole list of emissions from one runner activation. -/
def stampAll (r : RunnerSeqState) : List EventBody → List StampedEvent
  | [] => []
  | e :: es =>
      let p := emitStamp r e
      p.2 :: stampAll p.1 es

/-- Embeds `NewTurnRunner` leaves `seq` at the `int64` zero value; `Run` then
sets `seq = 0` and a fresh turn identifier before the turn starts. -/
def runnerAfterRunStart (sessionID turnID : String) : RunnerSeqState :=
  { sessionID := sessionID, turnID := turnID, seq := 0 }

/-- Embeds `Engine.Resume` constructs a **new** `TurnRunner` (`NewTurnRunner`,
so `seq` is the zero value `0`) and `TurnRunner.Resume` sets
`turnID = session.Pending.TurnID` without touching `seq`. -/
def runnerAfterResumeStart (sessionID : String) (pending : PendingApproval) : RunnerSeqState :=
  { sessionID := sessionID, turnID := pending.TurnID, seq := 0 }

theorem stampAll_map_seq (es : List EventBody) (r : RunnerSeqState) :
    (stampAll r es).map (fun se => se.seq) = List.range' (r.seq + 1) es.length := by
  induction es generalizing r with
  | nil => simp [stampAll]
  | cons e es ih =>
      simp [stampAll, emitStamp, List.range'_succ, ih]

theorem stampAll_turnID (es : List EventBody) (r : RunnerSeqState) :
    ∀ se ∈ stampAll r es, se.turnID = r.turnID := by
  induction es generalizing r with
  | nil => simp [stampAll]
  | cons e es ih =>
      intro se hse
      rcases List.mem_cons.mp hse with h | h
      · subst h; rfl
      · exact ih (emitStamp r e).1 se h

/-- The pending record of the C2 scenario. -/
def C2pending : PendingApproval :=
  { TurnID := "turn_1", RequestID := "req_1",
    ToolCall := { ToolCallID := "tc_1", ToolName := "write_file", Args := [] } }

/-- The events of the suspended-and-resumed turn `turn_1`: the fresh
activation emits a tool call and an approval and suspends; the resumed
activation (a fresh runner sharing the turn identifier) emits the tool
result and the completion. -/
def C2turnEvents : List StampedEvent :=
  stampAll (runnerAfterRunStart "s1" "turn_1")
    [EventBody.toolCall "tc_1" "write_file" [] true, EventBody.approval "req_1" "tc_1"] ++
  stampAll (runnerAfterResumeStart "s1" C2pending)
    [EventBody.toolResult "tc_1" "write_file" "success" "" "ok", EventBody.done "completed"]

/-- C2 (counterexample): in the suspended-and-resumed turn `turn_1`,
every emitted event carries the same turn identifier, but the sequence
numbers are `1, 2, 1, 2` — the resumed activation restarts at 1, so
the whole turn's sequence is not strictly increasing and does not form
the gap-free sequence `1, 2, 3, 4` the claim requires. -/
theorem C2_counterexample :
    (∀ se ∈ C2turnEvents, se.turnID = "turn_1") ∧
    C2turnEvents.map (fun se => se.seq) = [1, 2, 1, 2] ∧
    C2turnEvents.map (fun se => se.seq) ≠ List.range' 1 C2turnEvents.length := by
  refine ⟨?_, rfl, by decide⟩
  intro se hse
  fin_cases hse <;> rfl

/-- C2 (amended): sequence numbers start at 1 and increase by exactly
one with no gaps **within each runner activation**: a fresh `Run`
numbers its events `1..n`, and a `Resume` — which constructs a new
runner whose counter restarts at the zero value while keeping the
pending record's turn identifier — again numbers its events `1..n`
under the same turn identifier. Across a suspension the numbering
therefore restarts instead of continuing. -/
theorem C2_seq_per_activation (sessionID turnID : String) (pending : PendingApproval)
    (es1 es2 : List EventBody) :
    (stampAll (runnerAfterRunStart sessionID turnID) es1).map (fun se => se.seq) =
        List.range' 1 es1.length ∧
    (stampAll (runnerAfterResumeStart sessionID pending) es2).map (fun se => se.seq) =
        List.range' 1 es2.length ∧
    ∀ se ∈ stampAll (runnerAfterResumeStart sessionID pending) es2,
        se.turnID = pending.TurnID :=
  ⟨stampAll_map_seq es1 _, stampAll_map_seq es2 _, stampAll_turnID es2 _⟩

-- ━━━━━━━━━━━━━━━━━━━━━━━━━━━━━━━━━━━━━━━━━━━━━
-- Resume (turn_runner.go: Resume / resumeTurn; engine.go: Send / Resume)
-- ━━━━━━━━━━━━━━━━━━━━━━━━━━━━━━━━━━━━━━━━━━━━━

/-- Embeds `TurnRunner.emitPlanSnapshot`: an event for the plan
`plan_<sessionID>` when the plan store holds one, nothing otherwise
(`planExists` models the store lookup). -/
def planSnapshotEvents (planExists : Bool) (sessionID toolCallID : String) : List EventBody :=
  if planExists then [EventBody.plan ("plan_" ++ sessionID) toolCallID] else []

/-- The guard of `TurnRunner.Resume`: fail with `no_pending_approval`
when the session has no pending record, with `approval_mismatch` when
the decision's request id (or a non-empty tool-call id) does not match
it; otherwise hand the pending record to `resumeTurn`. The error
branches return before any session mutation. -/
def ResumeGuard (session : Session) (decision : Decision) : Except String PendingApproval :=
  match session.Pending with
  | none => Except.error ErrNoPendingApproval
  | some pending =>
      if decision.RequestID ≠ pending.RequestID then Except.error ErrApprovalMismatch
      else if decision.ToolCallID ≠ "" ∧ decision.ToolCallID ≠ pending.ToolCall.ToolCallID then
        Except.error ErrApprovalMismatch
      else Except.ok pending

/-- The pending-approval check of `Engine.Send`: refuse with
`turn_in_progress` when a turn is active or the loaded session still
holds a pending approval. -/
def SendGuard (activeTurnExists : Bool) (session : Session) : Option String :=
  if activeTurnExists then some ErrTurnInProgress
  else if session.Pending.isSome then some ErrTurnInProgress
  else none

/-- The result of `TurnRunner.resumeTurn` up to (and excluding) re-entry
into the agent loop: emitted events, the session state, and whether
control reached "Continue agent loop". -/
structure ResumeOutcome where
  events : List EventBody
  session : Session
  enterLoop : Bool

/-- Embeds `TurnRunner.resumeTurn`. External collaborators are parameters: the
tool registry `reg`, the middleware-provided allowed-tools list, and
the plan-store lookup `planExists`. Stores are modelled as pure state
(saves always succeed). -/
def resumeTurn (reg : String → Option RTool) (cwd workspaceRoot mode : String)
    (allowedTools : List String) (planExists : Bool)
    (session : Session) (pending : PendingApproval) (decision : Decision) : ResumeOutcome :=
  let ev0 := planSnapshotEvents planExists session.SessionID ""
  if decision.Kind = "reject" then
    { events := ev0 ++ [EventBody.done "rejected"],
      session := { session with Pending := none },
      enterLoop := false }
  else
    let args := if decision.Kind = "modify" then
        (match decision.ModifiedArgs with
         | some m => m
         | none => pending.ToolCall.Args)
      else pending.ToolCall.Args
    let execArgs := prepareExecArgs session.SessionID session.ActiveSkill
      pending.ToolCall.ToolName args
    match reg pending.ToolCall.ToolName with
    | none =>
        { events := ev0 ++ [EventBody.error ErrToolNotFound pending.ToolCall.ToolName,
                            EventBody.done "error"],
          session := session,
          enterLoop := false }
    | some tool =>
        let pctx : PolicyContext :=
          { SessionID := session.SessionID, ApprovalMode := mode,
            WorkspaceRoot := workspaceRoot, AllowedTools := allowedTools }
        match Validate cwd pctx ⟨tool.name, tool.risk⟩ execArgs with
        | some errCode =>
            { events := ev0 ++ [EventBody.toolResult pending.ToolCall.ToolCallID
                                  pending.ToolCall.ToolName "error" errCode "",
                                EventBody.done "completed"],
              session := { session with Pending := none },
              enterLoop := false }
        | none =>
            let result := match tool.execute execArgs with
              | Except.ok res => res
              | Except.error e => { content := "", status := "error", errMsg := e }
            let session1 :=
              if pending.ToolCall.ToolName = "activate_skill" ∧ result.status = "success" then
                (match findArg args "name" with
                 | some (JVal.str nm) =>
                     if nm ≠ "" then { session with ActiveSkill := nm } else session
                 | _ => session)
              else session
            let session2 := { session1 with
              Messages := session1.Messages ++
                [{ role := "tool", content := result.content,
                   toolCallID := pending.ToolCall.ToolCallID }],
              Pending := none }
            let evPlan := if pending.ToolCall.ToolName = "write_todos" then
                planSnapshotEvents planExists session.SessionID pending.ToolCall.ToolCallID
              else []
            { events := ev0 ++ [EventBody.toolResult pending.ToolCall.ToolCallID
                                  pending.ToolCall.ToolName result.status result.errMsg
                                  result.content] ++ evPlan,
              session := session2,
              enterLoop := true }

/-- A concrete pending approval used by closed instances. -/
def pendingEx : PendingApproval :=
  { TurnID := "turn_1", RequestID := "req_1",
    ToolCall := { ToolCallID := "tc_1", ToolName := "write_file",
                  Args := [("path", JVal.str "a.txt")] } }

/-- A concrete suspended session. -/
def sessionEx : Session :=
  { SessionID := "s1", Pending := some pendingEx }

/-- A reject decision matching `pendingEx`. -/
def rejectDecision : Decision :=
  { Kind := "reject", RequestID := "req_1" }

/-- An approve decision matching `pendingEx`. -/
def approveDecision : Decision :=
  { Kind := "approve", RequestID := "req_1" }

/-- An empty tool registry. -/
def emptyReg : String → Option RTool := fun _ => none

/-- C4: resuming with a matching reject decision clears the pending
record, saves the session otherwise unchanged, and terminates with
`Done(rejected)` without re-entering the agent loop; once the pending
record is cleared, any further `Resume` (in particular a second
reject) fails with `no_pending_approval`, and the failing guard
returns before any session mutation. -/
theorem C4_reject_resume (reg : String → Option RTool) (cwd ws mode : String)
    (allowed : List String) (planExists : Bool)
    (session : Session) (pending : PendingApproval) (decision : Decision)
    (hp : session.Pending = some pending)
    (hk : decision.Kind = "reject")
    (hr : decision.RequestID = pending.RequestID)
    (ht : decision.ToolCallID = "" ∨ decision.ToolCallID = pending.ToolCall.ToolCallID) :
    ResumeGuard session decision = Except.ok pending ∧
    (resumeTurn reg cwd ws mode allowed planExists session pending decision).session =
      { session with Pending := none } ∧
    (resumeTurn reg cwd ws mode allowed planExists session pending decision).events =
      planSnapshotEvents planExists session.SessionID "" ++ [EventBody.done "rejected"] ∧
    (resumeTurn reg cwd ws mode allowed planExists session pending decision).enterLoop = false ∧
    (∀ d' : Decision, ResumeGuard { session with Pending := none } d' =
      Except.error ErrNoPendingApproval) := by
  refine ⟨?_, ?_, ?_, ?_, ?_⟩
  · rcases ht with h | h <;> simp [ResumeGuard, hp, hr, h]
  · simp [resumeTurn, hk]
  · simp [resumeTurn, hk]
  · simp [resumeTurn, hk]
  · intro d'; simp [ResumeGuard]

/-- C4 (witness): the reject cycle evaluated on the concrete suspended
session `sessionEx`. -/
theorem C4_reject_resume_witness :
    ResumeGuard sessionEx rejectDecision = Except.ok pendingEx ∧
    (resumeTurn emptyReg "/" "/work" ModeAuto [] false sessionEx pendingEx
        rejectDecision).session.Pending = none ∧
    ResumeGuard { sessionEx with Pending := none } rejectDecision =
      Except.error ErrNoPendingApproval := by
  have h := C4_reject_resume emptyReg "/" "/work" ModeAuto [] false sessionEx pendingEx
    rejectDecision rfl rfl rfl (Or.inl rfl)
  exact ⟨h.1, by rw [h.2.1], h.2.2.2.2 rejectDecision⟩

/-- C10: resuming with an approve decision whose pending tool is absent
from the registry emits `Error(tool_not_found)` followed by
`Done(error)`, leaves the session — including its pending-approval
record — completely untouched, and does not re-enter the agent loop;
a subsequent `Send` on the still-suspended session is refused with
`turn_in_progress`. -/
theorem C10_resume_tool_not_found (reg : String → Option RTool) (cwd ws mode : String)
    (allowed : List String) (planExists : Bool)
    (session : Session) (pending : PendingApproval) (decision : Decision)
    (hp : session.Pending = some pending)
    (hk : decision.Kind = "approve")
    (hreg : reg pending.ToolCall.ToolName = none) :
    (resumeTurn reg cwd ws mode allowed planExists session pending decision).events =
      planSnapshotEvents planExists session.SessionID "" ++
        [EventBody.error ErrToolNotFound pending.ToolCall.ToolName,
         EventBody.done "error"] ∧
    (resumeTurn reg cwd ws mode allowed planExists session pending decision).session =
      session ∧
    (resumeTurn reg cwd ws mode allowed planExists session pending decision).enterLoop =
      false ∧
    SendGuard false session = some ErrTurnInProgress := by
  refine ⟨?_, ?_, ?_, ?_⟩
  · simp [resumeTurn, hk, hreg]
  · simp [resumeTurn, hk, hreg]
  · simp [resumeTurn, hk, hreg]
  · simp [SendGuard, hp]

/-- C10 (witness): the tool-not-found resume evaluated on the concrete
suspended session `sessionEx` with an empty registry. -/
theorem C10_resume_tool_not_found_witness :
    (resumeTurn emptyReg "/" "/work" ModeAuto [] false sessionEx pendingEx
        approveDecision).events =
      [EventBody.error ErrToolNotFound "write_file", EventBody.done "error"] ∧
    (resumeTurn emptyReg "/" "/work" ModeAuto [] false sessionEx pendingEx
        approveDecision).session.Pending = some pendingEx ∧
    SendGuard false sessionEx = some ErrTurnInProgress := by
  have h := C10_resume_tool_not_found emptyReg "/" "/work" ModeAuto [] false sessionEx
    pendingEx approveDecision rfl rfl rfl
  exact ⟨h.1, by rw [h.2.1]; rfl, h.2.2.2⟩

-- ━━━━━━━━━━━━━━━━━━━━━━━━━━━━━━━━━━━━━━━━━━━━━
-- Agent-loop tool-call processing (turn_runner.go: agentLoop, per-call loop)
-- ━━━━━━━━━━━━━━━━━━━━━━━━━━━━━━━━━━━━━━━━━━━━━

/-- The policy-relevant configuration of one agent-loop iteration. -/
structure LoopPolicyCfg where
  policy : DefaultPolicy := NewDefaultPolicy
  mode : String := ModeAuto
  cwd : String := "/"
  workspaceRoot : String := ""
  allowedTools : List String := []

/-- The result of the per-call processing loop: the emitted events, the
session state, and whether the loop suspended awaiting approval
(`loopOutcomeSuspended`). -/
structure ProcessResult where
  events : List EventBody
  session : Session
  suspended : Bool

/-- The `for _, tc := range toolCalls` loop of `TurnRunner.agentLoop`:
JSON parsing (`parseJSON` models `encoding/json`), registry lookup,
argument preparation, approval classification, the `ToolCall` event,
validation, approval suspension with a persisted pending record, or
execution with the `activate_skill` side effect, the `ToolResult`
event, the appended tool message and the `write_todos` plan snapshot.
Stores are modelled as pure state (saves always succeed). -/
def processToolCalls (cfg : LoopPolicyCfg) (parseJSON : String → Except String Args)
    (reg : String → Option RTool) (planExists : Bool) (reqID turnID : String)
    (session : Session) : List LLMToolCall → ProcessResult
  | [] => { events := [], session := session, suspended := false }
  | tc :: rest =>
      let parsed : Except String Args :=
        if trimGo tc.args = "" then Except.ok [] else parseJSON tc.args
      match parsed with
      | Except.error e =>
          let ev := EventBody.toolResult tc.id tc.name "error"
            (ErrToolArgsInvalid ++ ": invalid JSON args: " ++ e) ""
          let r := processToolCalls cfg parseJSON reg planExists reqID turnID session rest
          { r with events := ev :: r.events }
      | Except.ok args =>
          match reg tc.name with
          | none =>
              let ev := EventBody.toolResult tc.id tc.name "error" "tool not found" ""
              let r := processToolCalls cfg parseJSON reg planExists reqID turnID session rest
              { r with events := ev :: r.events }
          | some tool =>
              let execArgs := prepareExecArgs session.SessionID session.ActiveSkill tc.name args
              let pctx : PolicyContext :=
                { SessionID := session.SessionID, ApprovalMode := cfg.mode,
                  WorkspaceRoot := cfg.workspaceRoot, AllowedTools := cfg.allowedTools }
              let needAppr := NeedApproval cfg.policy cfg.mode ⟨tool.name, tool.risk⟩ execArgs
              let evCall := EventBody.toolCall tc.id tc.name args needAppr
              match Validate cfg.cwd pctx ⟨tool.name, tool.risk⟩ execArgs with
              | some errCode =>
                  let ev := EventBody.toolResult tc.id tc.name "error" errCode ""
                  let r := processToolCalls cfg parseJSON reg planExists reqID turnID session rest
                  { r with events := evCall :: ev :: r.events }
              | none =>
                  if needAppr then
                    let newPending : PendingApproval :=
                      { TurnID := turnID, RequestID := reqID,
                        ToolCall := { ToolCallID := tc.id, ToolName := tc.name,
                                      Args := args } }
                    { events := [evCall, EventBody.approval reqID tc.id],
                      session := { session with Pending := some newPending },
                      suspended := true }
                  else
                    let result := match tool.execute execArgs with
                      | Except.ok res => res
                      | Except.error e => { content := "", status := "error", errMsg := e }
                    let session1 :=
                      if tc.name = "activate_skill" ∧ result.status = "success" then
                        (match findArg args "name" with
                         | some (JVal.str nm) =>
                             if nm ≠ "" then { session with ActiveSkill := nm } else session
                         | _ => session)
                      else session
                    let session2 := { session1 with
                      Messages := session1.Messages ++
                        [{ role := "tool", content := result.content, toolCallID := tc.id }] }
                    let evPlan := if tc.name = "write_todos" then
                        planSnapshotEvents planExists session.SessionID tc.id
                      else []
                    let r := processToolCalls cfg parseJSON reg planExists reqID turnID
                      session2 rest
                    let evRes := EventBody.toolResult tc.id tc.name result.status
                      result.errMsg result.content
                    { r with events := evCall :: evRes :: (evPlan ++ r.events) }

/-- Whether an event is the terminal `Error` union variant. -/
def isErrorEvent : EventBody → Bool
  | EventBody.error _ _ => true
  | _ => false

theorem processToolCalls_no_error_event (cfg : LoopPolicyCfg)
    (parseJSON : String → Except String Args) (reg : String → Option RTool)
    (planExists : Bool) (reqID turnID : String) (tcs : List LLMToolCall) :
    ∀ session : Session,
      ∀ ev ∈ (processToolCalls cfg parseJSON reg planExists reqID turnID session tcs).events,
        isErrorEvent ev = false := by
  induction tcs with
  | nil =>
      intro session ev hev
      simp [processToolCalls] at hev
  | cons tc rest ih =>
      intro session ev hev
      simp only [processToolCalls] at hev
      rcases hpar : (if trimGo tc.args = "" then Except.ok ([] : List (String × JVal))
          else parseJSON tc.args) with e | args
      · simp only [hpar, List.mem_cons] at hev
        rcases hev with h | h
        · subst h; rfl
        · exact ih session ev h
      · simp only [hpar] at hev
        rcases hreg : reg tc.name with _ | tool
        · simp only [hreg, List.mem_cons] at hev
          rcases hev with h | h
          · subst h; rfl
          · exact ih session ev h
        · simp only [hreg] at hev
          rcases hval : Validate cfg.cwd
              { SessionID := session.SessionID, ApprovalMode := cfg.mode,
                WorkspaceRoot := cfg.workspaceRoot, AllowedTools := cfg.allowedTools }
              ⟨tool.name, tool.risk⟩
              (prepareExecArgs session.SessionID session.ActiveSkill tc.name args) with
            _ | errCode
          · simp only [hval] at hev
            cases hap : NeedApproval cfg.policy cfg.mode ⟨tool.name, tool.risk⟩
                (prepareExecArgs session.SessionID session.ActiveSkill tc.name args)
            · simp only [hap, Bool.false_eq_true, if_false, List.mem_cons,
                List.mem_append] at hev
              rcases hev with h | h | h
              · subst h; rfl
              · subst h; rfl
              · rcases h with h | h
                · by_cases hw : tc.name = "write_todos"
                  · rw [if_pos hw] at h
                    cases hb : planExists
                    · rw [hb] at h; simp [planSnapshotEvents] at h
                    · rw [hb] at h; simp [planSnapshotEvents] at h
                      subst h; rfl
                  · rw [if_neg hw] at h
                    simp at h
                · exact ih _ ev h
            · simp only [hap, if_true, List.mem_cons, List.not_mem_nil, or_false] at hev
              rcases hev with h | h
              · subst h; rfl
              · subst h; rfl
          · simp only [hval, List.mem_cons] at hev
            rcases hev with h | h | h
            · subst h; rfl
            · subst h; rfl
            · exact ih session ev h

/-- C7: per-call failures in the agent loop are reported, not fatal:
a raw argument string that fails JSON parsing, an unknown tool name,
and a tool execution error each produce a `ToolResult` event with
status `error` for that call, after which processing continues with
the remaining tool calls (the loop result equals the failure events
prepended to the result for the rest); and no call processed by the
loop ever emits a terminal `Error` event. -/
theorem C7_tool_failures_continue (cfg : LoopPolicyCfg)
    (parseJSON : String → Except String Args) (reg : String → Option RTool)
    (planExists : Bool) (reqID turnID : String) (session : Session)
    (tc : LLMToolCall) (rest tcs : List LLMToolCall)
    (args : Args) (e : String) (tool : RTool) :
    (trimGo tc.args ≠ "" → parseJSON tc.args = Except.error e →
      processToolCalls cfg parseJSON reg planExists reqID turnID session (tc :: rest) =
        { events := EventBody.toolResult tc.id tc.name "error"
              (ErrToolArgsInvalid ++ ": invalid JSON args: " ++ e) "" ::
            (processToolCalls cfg parseJSON reg planExists reqID turnID session rest).events,
          session :=
            (processToolCalls cfg parseJSON reg planExists reqID turnID session rest).session,
          suspended :=
            (processToolCalls cfg parseJSON reg planExists reqID turnID session rest).suspended }) ∧
    ((if trimGo tc.args = "" then Except.ok [] else parseJSON tc.args) = Except.ok args →
      reg tc.name = none →
      processToolCalls cfg parseJSON reg planExists reqID turnID session (tc :: rest) =
        { events := EventBody.toolResult tc.id tc.name "error" "tool not found" "" ::
            (processToolCalls cfg parseJSON reg planExists reqID turnID session rest).events,
          session :=
            (processToolCalls cfg parseJSON reg planExists reqID turnID session rest).session,
          suspended :=
            (processToolCalls cfg parseJSON reg planExists reqID turnID session rest).suspended }) ∧
    ((if trimGo tc.args = "" then Except.ok [] else parseJSON tc.args) = Except.ok args →
      reg tc.name = some tool →
      Validate cfg.cwd
          { SessionID := session.SessionID, ApprovalMode := cfg.mode,
            WorkspaceRoot := cfg.workspaceRoot, AllowedTools := cfg.allowedTools }
          ⟨tool.name, tool.risk⟩
          (prepareExecArgs session.SessionID session.ActiveSkill tc.name args) = none →
      NeedApproval cfg.policy cfg.mode ⟨tool.name, tool.risk⟩
          (prepareExecArgs session.SessionID session.ActiveSkill tc.name args) = false →
      tool.execute (prepareExecArgs session.SessionID session.ActiveSkill tc.name args) =
        Except.error e →
      tc.name ≠ "activate_skill" →
      processToolCalls cfg parseJSON reg planExists reqID turnID session (tc :: rest) =
        (let sessionAfter := { session with Messages := session.Messages ++
            [{ role := "tool", content := "", toolCallID := tc.id }] }
         { events := EventBody.toolCall tc.id tc.name args false ::
              EventBody.toolResult tc.id tc.name "error" e "" ::
              ((if tc.name = "write_todos" then
                  planSnapshotEvents planExists session.SessionID tc.id else []) ++
               (processToolCalls cfg parseJSON reg planExists reqID turnID
                  sessionAfter rest).events),
           session := (processToolCalls cfg parseJSON reg planExists reqID turnID
              sessionAfter rest).session,
           suspended := (processToolCalls cfg parseJSON reg planExists reqID turnID
              sessionAfter rest).suspended })) ∧
    (∀ ev ∈ (processToolCalls cfg parseJSON reg planExists reqID turnID session tcs).events,
      isErrorEvent ev = false) := by
  refine ⟨?_, ?_, ?_, processToolCalls_no_error_event cfg parseJSON reg planExists
    reqID turnID tcs session⟩
  · intro htrim hpar
    simp [processToolCalls, htrim, hpar]
  · intro hpar hreg
    simp [processToolCalls, hpar, hreg]
  · intro hpar hreg hval hap hexec hskill
    simp [processToolCalls, hpar, hreg, hval, hap, hexec, hskill]

/-- The demo registry for the C7 witness: a single tool `echo` whose
execution always fails. -/
def failReg : String → Option RTool :=
  fun n => if n = "echo" then
    some { name := "echo", risk := some RiskNone, execute := fun _ => Except.error "boom" }
  else none

/-- The demo JSON decoder for the C7 witness: `bad` is malformed,
everything else decodes to the empty object. -/
def demoParse : String → Except String Args :=
  fun s => if s = "bad" then Except.error "bad json" else Except.ok []

/-- C7 (witness): the three failure shapes evaluated concretely — a
malformed argument string, an unknown tool, and a failing execution
each yield one error `ToolResult` and leave the loop unsuspended. -/
theorem C7_tool_failures_continue_witness :
    (processToolCalls { mode := ModeFullAuto } demoParse failReg false "r1" "t1"
        { SessionID := "s1" } [⟨"c1", "echo", "bad"⟩]).events =
      [EventBody.toolResult "c1" "echo" "error"
        (ErrToolArgsInvalid ++ ": invalid JSON args: " ++ "bad json") ""] ∧
    (processToolCalls { mode := ModeFullAuto } demoParse failReg false "r1" "t1"
        { SessionID := "s1" } [⟨"c2", "nope", ""⟩]).events =
      [EventBody.toolResult "c2" "nope" "error" "tool not found" ""] ∧
    (processToolCalls { mode := ModeFullAuto } demoParse failReg false "r1" "t1"
        { SessionID := "s1" } [⟨"c3", "echo", ""⟩]).events =
      [EventBody.toolCall "c3" "echo" [] false,
       EventBody.toolResult "c3" "echo" "error" "boom" ""] ∧
    (processToolCalls { mode := ModeFullAuto } demoParse failReg false "r1" "t1"
        { SessionID := "s1" } [⟨"c3", "echo", ""⟩]).suspended = false := by
  have h1 := (C7_tool_failures_continue { mode := ModeFullAuto } demoParse failReg false
    "r1" "t1" { SessionID := "s1" } ⟨"c1", "echo", "bad"⟩ [] [] [] "bad json"
    { name := "echo", risk := some RiskNone, execute := fun _ => Except.error "boom" }).1
    (by decide) rfl
  have h2 := (C7_tool_failures_continue { mode := ModeFullAuto } demoParse failReg false
    "r1" "t1" { SessionID := "s1" } ⟨"c2", "nope", ""⟩ [] [] [] "e"
    { name := "echo", risk := some RiskNone, execute := fun _ => Except.error "boom" }).2.1
    rfl rfl
  have h3 := (C7_tool_failures_continue { mode := ModeFullAuto } demoParse failReg false
    "r1" "t1" { SessionID := "s1" } ⟨"c3", "echo", ""⟩ [] [] [] "boom"
    { name := "echo", risk := some RiskNone, execute := fun _ => Except.error "boom" }).2.2.1
    rfl rfl rfl rfl rfl (by decide)
  refine ⟨?_, ?_, ?_, ?_⟩
  · rw [h1]; rfl
  · rw [h2]; rfl
  · rw [h3]; rfl
  · rw [h3]; rfl

/-- A workspace `/work` containing a symlink `link` pointing at the
outside directory `/outside`. -/
def C1fs : FS :=
  [("/work", FSNode.dir), ("/work/link", FSNode.symlink "/outside"),
   ("/outside", FSNode.dir)]

/-- C1 (counterexample): with workspace root `/work` and the filesystem
`C1fs` in which `/work/link` is a symlink to `/outside`,
`DefaultPolicy.Validate` accepts the argument `path = "link"` — even
though canonicalisation resolves it to `/outside`, outside the
workspace, as the tools-layer `resolvePathInWorkspace` establishes by
rejecting the very same path. So `Validate` does not resolve symlinks,
and a path that escapes the workspace via a symlink is not rejected by
`Validate`. -/
theorem C1_counterexample :
    Validate "/" { WorkspaceRoot := "/work" } ⟨"read_file", some RiskNone⟩
        [("path", JVal.str "link")] = none ∧
    resolvePathInWorkspace C1fs "/" "/work" "link" =
      Except.error "path escapes workspace via symlink: link" :=
  ⟨rfl, rfl⟩

/-- C1 (amended): for a tool call whose arguments carry a string `path`
and a non-empty workspace root (no skill allowlist in force),
`DefaultPolicy.Validate` resolves the path only lexically
(join with the root when relative, then `filepath.Abs`/`Clean` — no
symlink resolution) and rejects with `workspace_escape` exactly when
the lexically resolved path is neither the workspace root itself nor a
string-prefix descendant of it; in particular a path equal to an
absolute workspace root is accepted. Symlink-resolving
canonicalisation (of the nearest existing ancestor) is performed
instead by the tools-layer `resolvePathInWorkspace`, which rejects a
path escaping the workspace via a symlink, as on the filesystem
`C1fs`. -/
theorem C1_workspace_validation (cwd : String) (pctx : PolicyContext) (tool : PolicyTool)
    (args : Args) (p : String)
    (hallow : pctx.AllowedTools = [])
    (hroot : pctx.WorkspaceRoot ≠ "")
    (hpath : findArg args "path" = some (JVal.str p)) :
    (Validate cwd pctx tool args = none ↔
      (absGo cwd (if isAbsGo p then p else joinGo pctx.WorkspaceRoot p) =
          absGo cwd pctx.WorkspaceRoot ∨
        strStartsWith (absGo cwd (if isAbsGo p then p else joinGo pctx.WorkspaceRoot p))
          (absGo cwd pctx.WorkspaceRoot ++ "/") = true)) ∧
    (isAbsGo pctx.WorkspaceRoot = true →
      Validate cwd pctx tool [("path", JVal.str pctx.WorkspaceRoot)] = none) ∧
    resolvePathInWorkspace C1fs "/" "/work" "link" =
      Except.error "path escapes workspace via symlink: link" := by
  refine ⟨?_, ?_, rfl⟩
  · simp only [Validate, hallow, hpath, validatePath, List.length_nil, lt_irrefl,
      false_and, if_false, if_neg, hroot, ne_eq, not_false_iff, if_true]
    by_cases h1 : strStartsWith
        (absGo cwd (if isAbsGo p then p else joinGo pctx.WorkspaceRoot p))
        (absGo cwd pctx.WorkspaceRoot ++ "/") = true
    · simp [h1, hroot]
    · by_cases h2 : absGo cwd (if isAbsGo p then p else joinGo pctx.WorkspaceRoot p) =
          absGo cwd pctx.WorkspaceRoot
      · simp [h1, h2, hroot]
      · simp [h1, h2, hroot]
  · intro habs
    simp [Validate, hallow, findArg, hroot, validatePath, habs]

/-- C1 (witness): the amended theorem evaluated concretely — the
relative path `a.txt` under workspace root `/work` is accepted, and so
is the workspace root itself. -/
theorem C1_workspace_validation_witness :
    Validate "/" { WorkspaceRoot := "/work" } ⟨"read_file", some RiskNone⟩
        [("path", JVal.str "a.txt")] = none ∧
    Validate "/" { WorkspaceRoot := "/work" } ⟨"read_file", some RiskNone⟩
        [("path", JVal.str "/work")] = none := by
  have h := C1_workspace_validation "/" { WorkspaceRoot := "/work" }
    ⟨"read_file", some RiskNone⟩ [("path", JVal.str "a.txt")] "a.txt"
    rfl (by decide) rfl
  exact ⟨h.1.mpr (Or.inr rfl), h.2.1 rfl⟩

/-- C3: `NeedApproval` is constantly `true` in suggest mode, constantly
`false` in full-auto mode, and in auto mode holds exactly when the tool
is a plan/memory mutator, has declared high risk, is shell-like with a
dangerous command token, or is in the write-oriented set. -/
theorem C3_need_approval (tool : PolicyTool) (args : Args) :
    NeedApproval NewDefaultPolicy ModeSuggest tool args = true ∧
    NeedApproval NewDefaultPolicy ModeFullAuto tool args = false ∧
    (NeedApproval NewDefaultPolicy ModeAuto tool args = true ↔
      ((tool.name = "write_todos" ∨ tool.name = "update_memory") ∨
       tool.risk = some RiskHigh ∨
       ((tool.name = "shell" ∨ tool.name = "run_command") ∧
         ∃ cmd, findArg args "command" = some (JVal.str cmd) ∧
           ∃ pat ∈ NewDefaultPolicy.DangerousCommands, strContains cmd pat = true) ∨
       tool.name ∈ ["write_file", "edit_file", "delete_file",
                    "shell", "run_command", "run_skill_script"])) := by
  refine ⟨rfl, rfl, ?_⟩
  show needApprovalAuto NewDefaultPolicy tool args = true ↔ _
  unfold needApprovalAuto riskIsHigh commandHasDangerous highRiskToolsLookup
  cases hr : tool.risk with
  | none =>
      cases hc : findArg args "command" with
      | none =>
          simp [hc, List.any_eq_true, or_assoc]
      | some v =>
          cases v <;>
            simp [hc, List.any_eq_true, or_assoc]
  | some r =>
      cases hc : findArg args "command" with
      | none =>
          simp [hc, List.any_eq_true, or_assoc, RiskHigh]
      | some v =>
          cases v <;>
            simp [hc, List.any_eq_true, or_assoc, RiskHigh]

/-- C8: `prepareExecArgs` only injects `session_id` for the plan tools
and `_active_skill` for the skill-script runner; every other lookup is
unchanged, and it is the identity on the arguments of all other tools. -/
theorem C8_prepare_exec_args (sid sk toolName : String) (args : Args) (key : String) :
    findArg (prepareExecArgs sid sk toolName args) key =
      (if (toolName = "read_todos" ∨ toolName = "write_todos") ∧ key = "session_id" then
        some (JVal.str sid)
      else if toolName = "run_skill_script" ∧ key = "_active_skill" then
        some (JVal.str sk)
      else findArg args key) := by
  unfold prepareExecArgs
  by_cases hplan : toolName = "read_todos" ∨ toolName = "write_todos"
  · have hskill : ¬ toolName = "run_skill_script" := by
      rcases hplan with h | h <;> simp [h]
    by_cases hkey : key = "session_id" <;>
      simp [hplan, hskill, hkey, findArg_setArg]
  · by_cases hskill : toolName = "run_skill_script"
    · by_cases hkey : key = "_active_skill" <;>
        simp [hplan, hskill, hkey, findArg_setArg]
    · simp [hplan, hskill]

-- ━━━━━━━━━━━━━━━━━━━━━━━━━━━━━━━━━━━━━━━━━━━━━
-- History compression (part_005: CompressHistory and the split search)
-- ━━━━━━━━━━━━━━━━━━━━━━━━━━━━━━━━━━━━━━━━━━━━━

/-- Embeds `countTurns`: number of user messages. -/
def countTurns (messages : List LLMMessage) : Nat :=
  (messages.filter (fun m => m.role = "user")).length

/-- Insertion into the `pendingToolCalls` set (Go `map[string]bool`
assignment). -/
def insertID (l : List String) (x : String) : List String :=
  if x ∈ l then l else l ++ [x]

/-- Deletion from the `pendingToolCalls` set (Go `delete`). -/
def eraseID (l : List String) (x : String) : List String :=
  l.filter (fun y => y ≠ x)

/-- One loop iteration of the pending-tool-call tracking shared by
`findTurnSplitIndex` and `findSafeMessageSplit`: an assistant message
with tool calls adds their ids, a tool message with a tool-call id
removes it. -/
def stepPending (p : List String) (m : LLMMessage) : List String :=
  let p1 := if m.role = "assistant" ∧ m.toolCalls ≠ [] then
      m.toolCalls.foldl (fun acc tc => insertID acc tc.id) p
    else p
  if m.role = "tool" ∧ m.toolCallID ≠ "" then eraseID p1 m.toolCallID else p1

/-- The valid-split-point collection loop: a user-message index with no
pending tool calls is a valid split point. -/
def validSplitsFrom (p : List String) (i : Nat) : List LLMMessage → List Nat
  | [] => []
  | m :: rest =>
      let p' := stepPending p m
      if m.role = "user" ∧ p' = [] then i :: validSplitsFrom p' (i + 1) rest
      else validSplitsFrom p' (i + 1) rest

/-- All valid split points of a message list. -/
def validSplits (messages : List LLMMessage) : List Nat :=
  validSplitsFrom [] 0 messages

/-- Embeds `findTurnSplitIndex`: keep the last `keepTurns` turns; `0` when
there are not enough valid split points. -/
def findTurnSplitIndex (messages : List LLMMessage) (keepTurns : Nat) : Nat :=
  let vs := validSplits messages
  if vs.length ≤ keepTurns then 0 else vs.getD (vs.length - keepTurns) 0

/-- Embeds `findSafeMessageSplit`: the first valid split keeping at most
`maxMessages`, else the last positive valid split, else `0`. -/
def findSafeMessageSplit (messages : List LLMMessage) (maxMessages : Nat) : Nat :=
  if messages.length ≤ maxMessages then 0
  else
    let targetSplit := messages.length - maxMessages
    let vs := validSplits messages
    match vs.find? (fun s => decide (targetSplit ≤ s)) with
    | some s => s
    | none =>
        match vs.reverse.find? (fun s => decide (0 < s)) with
        | some s => s
        | none => 0

/-- The split-selection logic of `CompressHistory`: prefer the
turn-based split, fall back to the message-count split when the former
is `0` or keeps too many messages. -/
def chosenSplit (messages : List LLMMessage) (keepTurns maxMessages : Nat) : Nat :=
  let splitIdx := findTurnSplitIndex messages keepTurns
  if splitIdx = 0 ∨ maxMessages < messages.length - splitIdx then
    findSafeMessageSplit messages maxMessages
  else splitIdx

/-- Embeds `generateSummary`, with the external LLM modelled by `llmResult`:
`Except.error` is a failed `llm.Stream` call and `Except.ok out` the
concatenation of the streamed deltas (the prompt rendering does not
influence the session update). The streamed text is trimmed; an empty
result keeps the existing summary. -/
def generateSummary (llmResult : Except String String) (existingSummary : String) :
    Except String String :=
  match llmResult with
  | Except.error e => Except.error e
  | Except.ok out =>
      let summary := trimGo out
      if summary = "" then Except.ok existingSummary else Except.ok summary

/-- Embeds `runtime.CompressConfig` (Go `int` fields as `Int`). -/
structure CompressConfig where
  KeepTurns : Int := 0
  MaxMessages : Int := 0
  ForceCompress : Bool := false

/-- Embeds `CompressHistory`: normalise the configuration, decide whether
compression is needed, choose the split, summarise the prefix through
the LLM and replace the session contents. -/
def CompressHistory (llmResult : Except String String) (session : Session)
    (cfg : CompressConfig) : Except String Session :=
  let keepTurns : Int := if cfg.KeepTurns ≤ 0 then 1 else cfg.KeepTurns
  let maxMessages : Int := if cfg.MaxMessages ≤ 0 then 20 else cfg.MaxMessages
  let totalMessages := session.Messages.length
  let turns := countTurns session.Messages
  let needs : Bool := cfg.ForceCompress || decide (maxMessages < (totalMessages : Int)) ||
    decide (keepTurns < (turns : Int))
  if needs = false then Except.ok session
  else
    let splitIdx := chosenSplit session.Messages keepTurns.toNat maxMessages.toNat
    if splitIdx = 0 then Except.ok session
    else
      match generateSummary llmResult session.Summary with
      | Except.error e => Except.error e
      | Except.ok summary =>
          Except.ok { session with
            Summary := summary,
            Messages := session.Messages.drop splitIdx }

theorem stepPending_user (p : List String) (m : LLMMessage) (h : m.role = "user") :
    stepPending p m = p := by
  simp [stepPending, h]

theorem mem_insertID_of_mem (l : List String) (x y : String) (h : y ∈ l) :
    y ∈ insertID l x := by
  unfold insertID; split
  · exact h
  · exact List.mem_append_left _ h

theorem mem_insertID_self (l : List String) (x : String) : x ∈ insertID l x := by
  unfold insertID; split
  · assumption
  · exact List.mem_append_right _ (List.mem_singleton.mpr rfl)

theorem mem_foldl_insert_of_mem (tcs : List LLMToolCall) :
    ∀ (p : List String) (y : String), y ∈ p →
      y ∈ tcs.foldl (fun acc tc => insertID acc tc.id) p := by
  induction tcs with
  | nil => intro p y h; exact h
  | cons tc rest ih =>
      intro p y h
      exact ih _ y (mem_insertID_of_mem _ _ _ h)

theorem mem_foldl_insert_self (tcs : List LLMToolCall) :
    ∀ (p : List String) (tc : LLMToolCall), tc ∈ tcs →
      tc.id ∈ tcs.foldl (fun acc tc => insertID acc tc.id) p := by
  induction tcs with
  | nil => intro p tc h; cases h
  | cons hd rest ih =>
      intro p tc h
      rcases List.mem_cons.mp h with h | h
      · subst h
        exact mem_foldl_insert_of_mem rest _ tc.id (mem_insertID_self p tc.id)
      · exact ih _ tc h

theorem stepPending_erase (p : List String) (m : LLMMessage) (x : String)
    (h1 : x ∈ p) (h2 : x ∉ stepPending p m) :
    m.role = "tool" ∧ m.toolCallID = x := by
  have hx1 : x ∈ (if m.role = "assistant" ∧ m.toolCalls ≠ [] then
      m.toolCalls.foldl (fun acc tc => insertID acc tc.id) p else p) := by
    split
    · exact mem_foldl_insert_of_mem _ p x h1
    · exact h1
  simp only [stepPending] at h2
  by_cases hc : m.role = "tool" ∧ m.toolCallID ≠ ""
  · rw [if_pos hc] at h2
    refine ⟨hc.1, ?_⟩
    by_contra hne
    exact h2 (List.mem_filter.mpr ⟨hx1, by simpa using fun hh => hne hh.symm⟩)
  · rw [if_neg hc] at h2
    exact absurd hx1 h2

theorem foldl_stepPending_erased (msgs : List LLMMessage) :
    ∀ (p : List String) (x : String), x ∈ p →
      List.foldl stepPending p msgs = [] →
      ∃ k m', msgs.get? k = some m' ∧ m'.role = "tool" ∧ m'.toolCallID = x := by
  induction msgs with
  | nil =>
      intro p x hx h
      rw [List.foldl_nil] at h
      subst h
      cases hx
  | cons m rest ih =>
      intro p x hx h
      rw [List.foldl_cons] at h
      by_cases hmem : x ∈ stepPending p m
      · obtain ⟨k, m', h1, h2, h3⟩ := ih _ x hmem h
        exact ⟨k + 1, m', by simpa using h1, h2, h3⟩
      · obtain ⟨hrole, hid⟩ := stepPending_erase p m x hx hmem
        exact ⟨0, m, rfl, hrole, hid⟩

/-- An empty pending set over a prefix forces every assistant tool call
in it to find its matching tool-result message later in the same
prefix. -/
theorem no_straddle (pre : List LLMMessage)
    (hempty : List.foldl stepPending [] pre = [])
    (j : Nat) (mj : LLMMessage) (tc : LLMToolCall)
    (hj : pre.get? j = some mj) (hrole : mj.role = "assistant") (htc : tc ∈ mj.toolCalls) :
    ∃ k mk, j < k ∧ pre.get? k = some mk ∧ mk.role = "tool" ∧ mk.toolCallID = tc.id := by
  have htake : pre.take (j + 1) = pre.take j ++ [mj] := by
    rw [List.take_succ, ← List.get?_eq_getElem?, hj]
    rfl
  have hne : mj.toolCalls ≠ [] := by
    intro hnil
    rw [hnil] at htc
    cases htc
  have hmem : tc.id ∈ List.foldl stepPending [] (pre.take (j + 1)) := by
    rw [htake, List.foldl_append, List.foldl_cons, List.foldl_nil]
    simp only [stepPending]
    rw [if_neg (show ¬ (mj.role = "tool" ∧ mj.toolCallID ≠ "") by rw [hrole]; simp),
      if_pos (show mj.role = "assistant" ∧ mj.toolCalls ≠ [] from ⟨hrole, hne⟩)]
    exact mem_foldl_insert_self _ _ tc htc
  have hfin : List.foldl stepPending
      (List.foldl stepPending [] (pre.take (j + 1))) (pre.drop (j + 1)) = [] := by
    rw [← List.foldl_append, List.take_append_drop]
    exact hempty
  obtain ⟨k, mk, h1, h2, h3⟩ := foldl_stepPending_erased (pre.drop (j + 1)) _ tc.id hmem hfin
  refine ⟨j + 1 + k, mk, by omega, ?_, h2, h3⟩
  rw [← h1]
  simp [List.get?_eq_getElem?, List.getElem?_drop]

theorem validSplitsFrom_mem (msgs : List LLMMessage) :
    ∀ (p : List String) (i j : Nat), j ∈ validSplitsFrom p i msgs →
      i ≤ j ∧ ∃ m, msgs.get? (j - i) = some m ∧ m.role = "user" ∧
        List.foldl stepPending p (msgs.take (j - i)) = [] := by
  induction msgs with
  | nil =>
      intro p i j h
      simp [validSplitsFrom] at h
  | cons m rest ih =>
      intro p i j h
      simp only [validSplitsFrom] at h
      by_cases hc : m.role = "user" ∧ stepPending p m = []
      · rw [if_pos hc] at h
        rcases List.mem_cons.mp h with h0 | h0
        · subst h0
          refine ⟨le_refl _, m, ?_, hc.1, ?_⟩
          · simp
          · have hp : p = [] := by
              have := stepPending_user p m hc.1
              rw [this] at hc
              exact hc.2
            simp [hp]
        · obtain ⟨h1, mm, h2, h3, h4⟩ := ih (stepPending p m) (i + 1) j h0
          have hji : j - i = (j - (i + 1)) + 1 := by omega
          refine ⟨by omega, mm, ?_, h3, ?_⟩
          · rw [hji, List.get?_cons_succ]; exact h2
          · rw [hji, List.take_succ_cons, List.foldl_cons]
            exact h4
      · rw [if_neg hc] at h
        obtain ⟨h1, mm, h2, h3, h4⟩ := ih (stepPending p m) (i + 1) j h
        have hji : j - i = (j - (i + 1)) + 1 := by omega
        refine ⟨by omega, mm, ?_, h3, ?_⟩
        · rw [hji, List.get?_cons_succ]; exact h2
        · rw [hji, List.take_succ_cons, List.foldl_cons]
          exact h4

theorem validSplits_mem (msgs : List LLMMessage) (j : Nat) (h : j ∈ validSplits msgs) :
    ∃ m, msgs.get? j = some m ∧ m.role = "user" ∧
      List.foldl stepPending [] (msgs.take j) = [] := by
  have := validSplitsFrom_mem msgs [] 0 j h
  simpa using this.2

theorem findTurnSplitIndex_mem (msgs : List LLMMessage) (keep : Nat) :
    findTurnSplitIndex msgs keep = 0 ∨ findTurnSplitIndex msgs keep ∈ validSplits msgs := by
  unfold findTurnSplitIndex
  by_cases h : (validSplits msgs).length ≤ keep
  · left; simp [h]
  · rw [if_neg h]
    by_cases hlt : (validSplits msgs).length - keep < (validSplits msgs).length
    · right
      rw [List.getD_eq_getElem?_getD, List.getElem?_eq_getElem hlt]
      exact List.getElem_mem hlt
    · left
      rw [List.getD_eq_getElem?_getD, List.getElem?_eq_none (by omega)]
      rfl

theorem findSafeMessageSplit_mem (msgs : List LLMMessage) (maxM : Nat) :
    findSafeMessageSplit msgs maxM = 0 ∨ findSafeMessageSplit msgs maxM ∈ validSplits msgs := by
  unfold findSafeMessageSplit
  by_cases h : msgs.length ≤ maxM
  · left; simp [h]
  · rw [if_neg h]
    rcases hf : (validSplits msgs).find? (fun s => decide (msgs.length - maxM ≤ s)) with _ | s
    · rcases hg : (validSplits msgs).reverse.find? (fun s => decide (0 < s)) with _ | s
      · left
        simp only [hf, hg]
      · right
        simp only [hf, hg]
        exact List.mem_reverse.mp (List.mem_of_find?_eq_some hg)
    · right
      simp only [hf]
      exact List.mem_of_find?_eq_some hf

theorem chosenSplit_mem (msgs : List LLMMessage) (keep maxM : Nat) :
    chosenSplit msgs keep maxM = 0 ∨ chosenSplit msgs keep maxM ∈ validSplits msgs := by
  by_cases hz : findTurnSplitIndex msgs keep = 0 ∨
      maxM < msgs.length - findTurnSplitIndex msgs keep
  · simp only [chosenSplit, if_pos hz]
    exact findSafeMessageSplit_mem msgs maxM
  · simp only [chosenSplit, if_neg hz]
    exact findTurnSplitIndex_mem msgs keep

/-- C6: whenever `CompressHistory` returns successfully, either the
messages are unchanged, or they are the suffix from a positive split
index `i` at which the message is a user message, the prefix has no
outstanding tool calls, and every assistant tool call in the removed
prefix has its matching tool-result message inside the prefix (no
tool-call/tool-result pair straddles the split); and when no positive
user-message boundary with an empty outstanding set exists, the
messages are left unchanged. -/
theorem C6_compression_split_safety (session : Session) (cfg : CompressConfig)
    (llmRes : Except String String) (s' : Session)
    (h : CompressHistory llmRes session cfg = Except.ok s') :
    (s'.Messages = session.Messages ∨
      ∃ i, 0 < i ∧ s'.Messages = session.Messages.drop i ∧
        (∃ m, session.Messages.get? i = some m ∧ m.role = "user") ∧
        List.foldl stepPending [] (session.Messages.take i) = [] ∧
        (∀ j mj tc, session.Messages.get? j = some mj → j < i → mj.role = "assistant" →
          tc ∈ mj.toolCalls →
          ∃ k mk, j < k ∧ k < i ∧ session.Messages.get? k = some mk ∧
            mk.role = "tool" ∧ mk.toolCallID = tc.id)) ∧
    ((∀ i m, 0 < i → session.Messages.get? i = some m → m.role = "user" →
        List.foldl stepPending [] (session.Messages.take i) ≠ []) →
      s'.Messages = session.Messages) := by
  have hmain : s'.Messages = session.Messages ∨
      ∃ i, 0 < i ∧ s'.Messages = session.Messages.drop i ∧
        (∃ m, session.Messages.get? i = some m ∧ m.role = "user") ∧
        List.foldl stepPending [] (session.Messages.take i) = [] ∧
        (∀ j mj tc, session.Messages.get? j = some mj → j < i → mj.role = "assistant" →
          tc ∈ mj.toolCalls →
          ∃ k mk, j < k ∧ k < i ∧ session.Messages.get? k = some mk ∧
            mk.role = "tool" ∧ mk.toolCallID = tc.id) := by
    unfold CompressHistory at h
    set keepT : Int := if cfg.KeepTurns ≤ 0 then 1 else cfg.KeepTurns with hkeep
    set maxM : Int := if cfg.MaxMessages ≤ 0 then 20 else cfg.MaxMessages with hmax
    by_cases hneed : (cfg.ForceCompress ||
        decide (maxM < (session.Messages.length : Int)) ||
        decide (keepT < ((countTurns session.Messages : Nat) : Int))) = false
    · rw [if_pos hneed] at h
      left
      cases h
      rfl
    · rw [if_neg hneed] at h
      by_cases hz : chosenSplit session.Messages keepT.toNat maxM.toNat = 0
      · rw [if_pos hz] at h
        left
        cases h
        rfl
      · rw [if_neg hz] at h
        rcases hgen : generateSummary llmRes session.Summary with e | summary
        · rw [hgen] at h
          cases h
        · rw [hgen] at h
          have hs' : s' = { session with
              Summary := summary,
              Messages := session.Messages.drop
                (chosenSplit session.Messages keepT.toNat maxM.toNat) } := by
            cases h
            rfl
          right
          set i := chosenSplit session.Messages keepT.toNat maxM.toNat with hi
          have hiv : i ∈ validSplits session.Messages := by
            rcases chosenSplit_mem session.Messages keepT.toNat maxM.toNat with h0 | h0
            · exact absurd h0 hz
            · exact h0
          obtain ⟨m, hm1, hm2, hm3⟩ := validSplits_mem session.Messages i hiv
          have hilen : i < session.Messages.length := (List.get?_eq_some.mp hm1).1
          refine ⟨i, Nat.pos_of_ne_zero hz, by rw [hs'], ⟨m, hm1, hm2⟩, hm3, ?_⟩
          intro j mj tc hj hji hrole htc
          have hjpre : (session.Messages.take i).get? j = some mj := by
            rw [List.get?_eq_getElem?] at hj ⊢
            rw [List.getElem?_take_of_lt hji]
            exact hj
          obtain ⟨k, mk, hk1, hk2, hk3, hk4⟩ :=
            no_straddle (session.Messages.take i) hm3 j mj tc hjpre hrole htc
          have hklen : k < (session.Messages.take i).length :=
            (List.get?_eq_some.mp hk2).1
          have hki : k < i := by
            rw [List.length_take] at hklen
            omega
          refine ⟨k, mk, hk1, hki, ?_, hk3, hk4⟩
          rw [List.get?_eq_getElem?] at hk2 ⊢
          rw [← List.getElem?_take_of_lt hki]
          exact hk2
  refine ⟨hmain, ?_⟩
  intro hno
  rcases hmain with h0 | ⟨i, hi1, _, ⟨m, hm1, hm2⟩, hm3, _⟩
  · exact h0
  · exact absurd hm3 (hno i m hi1 hm1 hm2)

/-- A session with four messages `U A U A`, an existing summary, and
no tool calls. -/
def C5session : Session :=
  { SessionID := "s1", Summary := "old",
    Messages := [{ role := "user", content := "u1" }, { role := "assistant", content := "a1" },
                 { role := "user", content := "u2" }, { role := "assistant", content := "a2" }] }

/-- C5 (counterexample): compressing `C5session` (keep-turns 1, forced)
while the summarisation LLM streams an **empty** result still replaces
the session messages with the suffix at split index 2 — only the
summary value is left unchanged — refuting the claim that an empty
result leaves the session's messages unchanged. -/
theorem C5_counterexample :
    CompressHistory (Except.ok "") C5session { KeepTurns := 1, ForceCompress := true } =
      Except.ok { C5session with Messages := C5session.Messages.drop 2 } ∧
    C5session.Messages.drop 2 ≠ C5session.Messages ∧
    ({ C5session with Messages := C5session.Messages.drop 2 } : Session).Summary =
      C5session.Summary :=
  ⟨rfl, by decide, rfl⟩

/-- C5 (amended): when the summarisation stream succeeds with result
`out`, `CompressHistory` either changes nothing (compression not
needed, or no valid split), or — at a positive chosen split — replaces
the messages with the suffix **in both cases**, assigning the trimmed
result to the summary only when it is non-empty and keeping the
previous summary value when it is empty. -/
theorem C5_summary_assignment (session : Session) (cfg : CompressConfig) (out : String)
    (s' : Session)
    (h : CompressHistory (Except.ok out) session cfg = Except.ok s') :
    s' = session ∨
    (0 < chosenSplit session.Messages
        (if cfg.KeepTurns ≤ 0 then 1 else cfg.KeepTurns).toNat
        (if cfg.MaxMessages ≤ 0 then 20 else cfg.MaxMessages).toNat ∧
      s'.Messages = session.Messages.drop (chosenSplit session.Messages
        (if cfg.KeepTurns ≤ 0 then 1 else cfg.KeepTurns).toNat
        (if cfg.MaxMessages ≤ 0 then 20 else cfg.MaxMessages).toNat) ∧
      s'.Summary = (if trimGo out = "" then session.Summary else trimGo out)) := by
  unfold CompressHistory at h
  by_cases hneed : (cfg.ForceCompress ||
      decide ((if cfg.KeepTurns ≤ 0 then 1 else cfg.KeepTurns) <
        ((countTurns session.Messages : Nat) : Int)) ||
      decide ((if cfg.MaxMessages ≤ 0 then 20 else cfg.MaxMessages) <
        ((session.Messages.length : Nat) : Int))) = false
  · left
    rw [if_pos (by
      revert hneed
      cases cfg.ForceCompress <;> simp <;> omega)] at h
    cases h
    rfl
  · by_cases hneed2 : (cfg.ForceCompress ||
        decide ((if cfg.MaxMessages ≤ 0 then 20 else cfg.MaxMessages) <
          ((session.Messages.length : Nat) : Int)) ||
        decide ((if cfg.KeepTurns ≤ 0 then 1 else cfg.KeepTurns) <
          ((countTurns session.Messages : Nat) : Int))) = false
    · left
      rw [if_pos hneed2] at h
      cases h
      rfl
    · rw [if_neg hneed2] at h
      by_cases hz : chosenSplit session.Messages
          (if cfg.KeepTurns ≤ 0 then 1 else cfg.KeepTurns).toNat
          (if cfg.MaxMessages ≤ 0 then 20 else cfg.MaxMessages).toNat = 0
      · left
        rw [if_pos hz] at h
        cases h
        rfl
      · rw [if_neg hz] at h
        simp only [generateSummary] at h
        by_cases htrim : trimGo out = ""
        · rw [if_pos htrim] at h
          cases h
          right
          exact ⟨Nat.pos_of_ne_zero hz, rfl, by rw [if_pos htrim]⟩
        · rw [if_neg htrim] at h
          cases h
          right
          exact ⟨Nat.pos_of_ne_zero hz, rfl, by rw [if_neg htrim]⟩

/-- C5 (witness): the amended theorem evaluated on `C5session` with an
empty LLM result: the chosen split is positive and the summary keeps
its previous value while the messages were replaced. -/
theorem C5_summary_assignment_witness :
    0 < chosenSplit C5session.Messages 1 20 ∧
    ({ C5session with Messages := C5session.Messages.drop 2 } : Session).Summary =
      C5session.Summary := by
  have h := C5_summary_assignment C5session { KeepTurns := 1, ForceCompress := true } ""
    { C5session with Messages := C5session.Messages.drop 2 } rfl
  rcases h with h | ⟨h1, _, h3⟩
  · exact absurd (congrArg Session.Messages h) (by decide)
  · exact ⟨by simpa using h1, by simpa using h3⟩

/-- The compressed form of `C5session` with a non-empty summary. -/
def C6result : Session :=
  { C5session with Summary := "sum", Messages := C5session.Messages.drop 2 }

/-- C6 (witness): the split-safety theorem evaluated on `C5session`:
compression with keep-turns 1 picks the positive split index 2, whose
message is a user message. -/
theorem C6_compression_split_safety_witness :
    ∃ i, 0 < i ∧ C6result.Messages = C5session.Messages.drop i ∧
      (∃ m, C5session.Messages.get? i = some m ∧ m.role = "user") := by
  have h := (C6_compression_split_safety C5session { KeepTurns := 1, ForceCompress := true }
    (Except.ok "sum") C6result rfl).1
  rcases h with h | ⟨i, h1, h2, h3, _, _⟩
  · exact absurd h (by decide)
  · exact ⟨i, h1, h2, h3⟩

-- ━━━━━━━━━━━━━━━━━━━━━━━━━━━━━━━━━━━━━━━━━━━━━
-- Skill router (skill_router.go)
-- ━━━━━━━━━━━━━━━━━━━━━━━━━━━━━━━━━━━━━━━━━━━━━

/-- Embeds `api.SkillMeta` (the fields the router reads). -/
structure SkillMeta where
  Name : String
  Description : String := ""
deriving DecidableEq

/-- Embeds `routeSkillDecision`. -/
structure RouteDecision where
  Skill : String
  Source : String
  Locked : Bool
  Reason : String
  Score : Int
deriving DecidableEq

/-- Split a character list at every occurrence of `sep`
(`strings.Split`). -/
def splitOnCh (sep : Char) : List Char → List (List Char)
  | [] => [[]]
  | c :: rest =>
      let r := splitOnCh sep rest
      if c = sep then [] :: r
      else
        match r with
        | [] => [[c]]
        | w :: ws => (c :: w) :: ws

/-- Embeds `strings.Split(s, "-")`. -/
def splitDash (s : String) : List String :=
  (splitOnCh '-' s.toList).map String.mk

/-- ASCII letter-or-digit test (`asciiWords` keeps only these). -/
def isAsciiAlnum (c : Char) : Bool :=
  ('a' ≤ c ∧ c ≤ 'z') || ('0' ≤ c ∧ c ≤ '9')

/-- Embeds `strings.Fields` over a character list. -/
def fieldsOfChars (l : List Char) : List String :=
  ((l.foldr fieldsStep []).filter (fun w => w ≠ [])).map String.mk

/-- Embeds `asciiWords`: lowercase, keep ASCII alphanumerics, split into
words. -/
def asciiWords (s : String) : List String :=
  fieldsOfChars ((s.toList.map asciiLower).map (fun c => if isAsciiAlnum c then c else ' '))

/-- Join words with single spaces (`strings.Join(fields, " ")`). -/
def joinSpace : List String → String
  | [] => ""
  | [x] => x
  | x :: rest => x ++ " " ++ joinSpace rest

/-- Embeds `normalizeForMatch`: trim, lowercase, collapse whitespace runs to
single spaces. -/
def normalizeForMatch (s : String) : String :=
  let t := trimGo s
  if t = "" then "" else joinSpace (fieldsOfChars (t.toList.map asciiLower))

/-- The scanner behind `extractQuotedStrings`'s regexp
`"([^"]+)"` on a character list: leftmost non-overlapping non-empty
double-quoted runs, each trimmed. The fuel (initially the list length)
only bounds the structural recursion. -/
def extractQuotedAux : Nat → List Char → List String
  | 0, _ => []
  | _, [] => []
  | Nat.succ fuel, c :: rest =>
      if c = '"' then
        let inner := rest.takeWhile (fun d => ¬ (d = '"'))
        let after := rest.dropWhile (fun d => ¬ (d = '"'))
        match after with
        | [] => []
        | _ :: tail =>
            if inner = [] then extractQuotedAux fuel rest
            else trimGo (String.mk inner) :: extractQuotedAux fuel tail
      else extractQuotedAux fuel rest

/-- Embeds `extractQuotedStrings`. -/
def extractQuotedStrings (s : String) : List String :=
  extractQuotedAux s.toList.length s.toList

/-- Embeds `scoreSkill`. The `第X章`-placeholder regexp matching of
`triggerMatches` is the external parameter `trigOracle` (the regexp
engine); everything else is computed. -/
def scoreSkill (trigOracle : String → String → Bool) (sk : SkillMeta)
    (normalizedContext : String) : Int :=
  if sk.Name = "" then 0
  else
    let name := String.mk ((trimGo sk.Name).toList.map asciiLower)
    let s1 : Int := if strContains normalizedContext name then 12 else 0
    let s2 : Int := (splitDash name).foldl (fun acc tok0 =>
        let tok := trimGo tok0
        if tok.length < 3 then acc
        else if strContains normalizedContext tok then acc + 2 else acc) 0
    let s3 : Int := (extractQuotedStrings sk.Description).foldl (fun acc trig =>
        if trig = "" then acc
        else if trigOracle trig normalizedContext then acc + 15
        else if normalizeForMatch trig ≠ "" ∧
            strContains normalizedContext (normalizeForMatch trig) then acc + 15
        else acc) 0
    let s4 : Int := (asciiWords sk.Description).foldl (fun acc w =>
        if w.length < 4 then acc
        else if strContains normalizedContext w then acc + 1 else acc) 0
    s1 + s2 + s3 + s4

/-- The scoring formula restated from the specification's words: 12 for
a whole-name substring match, 2 per name token of length at least 3
found in the context, 15 per matching quoted trigger phrase, and 1 per
description keyword hit. Compared against `scoreSkill` below. -/
def scoreSkillSpec (trigOracle : String → String → Bool) (sk : SkillMeta)
    (normalizedContext : String) : Int :=
  if sk.Name = "" then 0
  else
    let name := String.mk ((trimGo sk.Name).toList.map asciiLower)
    (if strContains normalizedContext name then 12 else 0) +
    2 * (((splitDash name).filter (fun tok0 =>
        ¬ ((trimGo tok0).length < 3) ∧
        strContains normalizedContext (trimGo tok0))).length : Int) +
    15 * (((extractQuotedStrings sk.Description).filter (fun trig =>
        trig ≠ "" ∧ (trigOracle trig normalizedContext ∨
          (normalizeForMatch trig ≠ "" ∧
            strContains normalizedContext (normalizeForMatch trig))))).length : Int) +
    (((asciiWords sk.Description).filter (fun w =>
        ¬ (w.length < 4) ∧ strContains normalizedContext w)).length : Int)

/-- Embeds `skillExists`. -/
def skillExists (skills : List SkillMeta) (name : String) : Bool :=
  skills.any (fun sk => sk.Name = name)

/-- The ordering Go's `sort.Slice` comparator induces on `(name, score)`
pairs: higher score first, ties alphabetically by name. -/
def scoredLE (a b : String × Int) : Prop :=
  b.2 < a.2 ∨ (a.2 = b.2 ∧ a.1 ≤ b.1)

instance : DecidableRel scoredLE := fun a b => by
  unfold scoredLE; infer_instance

instance : IsTotal (String × Int) scoredLE where
  total a b := by
    rcases lt_trichotomy a.2 b.2 with h | h | h
    · exact Or.inr (Or.inl h)
    · rcases le_total a.1 b.1 with hn | hn
      · exact Or.inl (Or.inr ⟨h, hn⟩)
      · exact Or.inr (Or.inr ⟨h.symm, hn⟩)
    · exact Or.inl (Or.inl h)

instance : IsTrans (String × Int) scoredLE where
  trans a b c hab hbc := by
    rcases hab with h1 | ⟨h1, h1n⟩ <;> rcases hbc with h2 | ⟨h2, h2n⟩
    · exact Or.inl (by omega)
    · exact Or.inl (by omega)
    · exact Or.inl (by omega)
    · exact Or.inr ⟨by omega, le_trans h1n h2n⟩

/-- The decision built from the best-scoring entry. -/
def mkScoredDecision (best : String × Int) : RouteDecision :=
  { Skill := best.1, Source := "auto", Locked := false,
    Reason := "scored_match", Score := best.2 }

/-- The selection at the end of `routeSkill`'s scoring branch: sort
(score descending, name ascending — the unique order Go's `sort.Slice`
comparator produces for distinct names) and return the best entry when
its score reaches 8 and beats the runner-up by at least 2. -/
def selectBest (scoredList : List (String × Int)) : Option RouteDecision :=
  match List.insertionSort scoredLE scoredList with
  | [] => none
  | best :: rest =>
      if best.2 < 8 then none
      else
        match rest with
        | [] => some (mkScoredDecision best)
        | second :: _ =>
            if best.2 - second.2 < 2 then none else some (mkScoredDecision best)

/-- The scoring branch of `routeSkill`: score every skill over the
normalised context, then select the best. -/
def routeScored (trigOracle : String → String → Bool) (skills : List SkillMeta)
    (userMsg planHintT : String) : Option RouteDecision :=
  let ctx := normalizeForMatch (userMsg ++ " " ++ planHintT)
  if ctx = "" then none
  else selectBest (skills.map (fun sk => (sk.Name, scoreSkill trigOracle sk ctx)))

/-- Embeds `routeSkill`. The regexp-based parsers `parseUserSkillOverride` and
`parsePlanSkillTag` are external parameters (`userOverride`,
`planTagParse`); the placeholder regexp of `triggerMatches` is
`trigOracle`. -/
def routeSkill (userOverride : List SkillMeta → String → Option String)
    (planTagParse : String → Option (String × String))
    (trigOracle : String → String → Bool)
    (skills : List SkillMeta) (userMessage planHint : String) : Option RouteDecision :=
  let userMsg := trimGo userMessage
  let planHintT := trimGo planHint
  match userOverride skills userMsg with
  | some name =>
      some { Skill := name, Source := "user", Locked := true,
             Reason := "explicit_user_override", Score := 100 }
  | none =>
      match planTagParse planHintT with
      | some (planSkill, planText) =>
          if skillExists skills planSkill then
            some { Skill := planSkill, Source := "auto", Locked := false,
                   Reason := "plan_skill_tag:" ++ trimGo planText, Score := 90 }
          else routeScored trigOracle skills userMsg planHintT
      | none => routeScored trigOracle skills userMsg planHintT

theorem foldl_weighted {α : Type} (f : Int → α → Int) (p : α → Bool) (w : Int)
    (hf : ∀ acc x, f acc x = if p x then acc + w else acc) :
    ∀ (l : List α) (init : Int),
      List.foldl f init l = init + w * ((l.filter p).length : Int) := by
  intro l
  induction l with
  | nil => intro init; simp
  | cons x xs ih =>
      intro init
      rw [List.foldl_cons, hf]
      by_cases h : p x
      · rw [if_pos h, ih, List.filter_cons, if_pos h, List.length_cons]
        push_cast
        ring
      · rw [if_neg h, ih, List.filter_cons, if_neg h]

theorem scoreSkill_eq_spec (orac : String → String → Bool) (sk : SkillMeta) (ctx : String) :
    scoreSkill orac sk ctx = scoreSkillSpec orac sk ctx := by
  unfold scoreSkill scoreSkillSpec
  by_cases hn : sk.Name = ""
  · simp [hn]
  · simp only [if_neg hn]
    have hf2 : ∀ (acc : Int) (tok0 : String),
        (fun acc tok0 =>
          let tok := trimGo tok0
          if tok.length < 3 then acc
          else if strContains ctx tok then acc + 2 else acc) acc tok0 =
        if (¬ ((trimGo tok0).length < 3) ∧ strContains ctx (trimGo tok0) : Bool) then
          acc + 2 else acc := by
      intro acc tok0
      by_cases hl : (trimGo tok0).length < 3
      · simp [hl]
      · by_cases hc : strContains ctx (trimGo tok0) = true
        · simp [hl, hc]
        · simp [hl, hc]
    have hf3 : ∀ (acc : Int) (trig : String),
        (fun acc trig =>
          if trig = "" then acc
          else if orac trig ctx then acc + 15
          else if normalizeForMatch trig ≠ "" ∧
              strContains ctx (normalizeForMatch trig) then acc + 15
          else acc) acc trig =
        if (trig ≠ "" ∧ (orac trig ctx ∨
            (normalizeForMatch trig ≠ "" ∧
              strContains ctx (normalizeForMatch trig))) : Bool) then
          acc + 15 else acc := by
      intro acc trig
      by_cases he : trig = ""
      · simp [he]
      · by_cases ho : orac trig ctx = true
        · simp [he, ho]
        · by_cases hnm : normalizeForMatch trig ≠ "" ∧
              strContains ctx (normalizeForMatch trig) = true
          · simp [he, ho, hnm.1, hnm.2]
          · simp [he, ho, hnm]
    have hf4 : ∀ (acc : Int) (w : String),
        (fun acc w =>
          if w.length < 4 then acc
          else if strContains ctx w then acc + 1 else acc) acc w =
        if (¬ (w.length < 4) ∧ strContains ctx w : Bool) then acc + 1 else acc := by
      intro acc w
      by_cases hl : w.length < 4
      · simp [hl]
      · by_cases hc : strContains ctx w = true
        · simp [hl, hc]
        · simp [hl, hc]
    rw [foldl_weighted _ _ _ hf2, foldl_weighted _ _ _ hf3, foldl_weighted _ _ _ hf4]
    ring

theorem nodup_fst_inj {l : List (String × Int)} (h : (l.map Prod.fst).Nodup)
    {a b : String × Int} (ha : a ∈ l) (hb : b ∈ l) (heq : a.1 = b.1) : a = b :=
  List.inj_on_of_nodup_map h ha hb heq

theorem scoredLE_le {a b : String × Int} (h : scoredLE a b) : b.2 ≤ a.2 := by
  rcases h with h | ⟨h, _⟩ <;> omega

/-- Embeds `selectBest` returns a decision exactly for an entry scoring at
least 8 whose score exceeds every differently-named entry's score by
at least 2. -/
theorem selectBest_spec (scoredList : List (String × Int))
    (hfst : (scoredList.map Prod.fst).Nodup) (d : RouteDecision) :
    selectBest scoredList = some d ↔
      ∃ e ∈ scoredList, d = mkScoredDecision e ∧ 8 ≤ e.2 ∧
        ∀ e' ∈ scoredList, e'.1 ≠ e.1 → e'.2 + 2 ≤ e.2 := by
  have hnd : scoredList.Nodup := List.Nodup.of_map Prod.fst hfst
  have hperm := List.perm_insertionSort scoredLE scoredList
  have hsorted := List.sorted_insertionSort scoredLE scoredList
  have hndSorted : (List.insertionSort scoredLE scoredList).Nodup :=
    hperm.nodup_iff.mpr hnd
  rcases hs : List.insertionSort scoredLE scoredList with _ | ⟨best, rest⟩
  · have hnil : scoredList = [] := by
      have h0 := hperm
      rw [hs] at h0
      exact h0.symm.eq_nil
    subst hnil
    simp [selectBest]
  · have hmemBest : best ∈ scoredList := by
      apply hperm.mem_iff.mp
      rw [hs]
      exact List.mem_cons_self best rest
    rw [hs, List.sorted_cons] at hsorted
    obtain ⟨hbestle, hsortedRest⟩ := hsorted
    rw [hs] at hndSorted
    rcases rest with _ | ⟨second, rtail⟩
    · -- single entry
      constructor
      · intro hr
        simp only [selectBest, hs] at hr
        by_cases h8 : best.2 < 8
        · rw [if_pos h8] at hr
          cases hr
        · rw [if_neg h8] at hr
          refine ⟨best, hmemBest, ?_, by omega, ?_⟩
          · exact ((Option.some.injEq _ _).mp hr).symm
          · intro e' he' hne
            exfalso
            have hmem' : e' ∈ [best] := by
              have := hperm.mem_iff.mpr he'
              rwa [hs] at this
            rcases List.mem_cons.mp hmem' with h | h
            · exact hne (by rw [h])
            · cases h
      · rintro ⟨e, hmem, hd, h8, hdom⟩
        have hmemSorted : e ∈ [best] := by
          have := hperm.mem_iff.mpr hmem
          rwa [hs] at this
        have hbest_eq : best = e := by
          rcases List.mem_cons.mp hmemSorted with h | h
          · exact h.symm
          · cases h
        subst hbest_eq
        simp only [selectBest, hs]
        rw [if_neg (by omega : ¬ best.2 < 8), hd]
    · -- at least two entries
      constructor
      · intro hr
        simp only [selectBest, hs] at hr
        by_cases h8 : best.2 < 8
        · rw [if_pos h8] at hr
          cases hr
        · rw [if_neg h8] at hr
          by_cases hgap : best.2 - second.2 < 2
          · rw [if_pos hgap] at hr
            cases hr
          · rw [if_neg hgap] at hr
            refine ⟨best, hmemBest, ((Option.some.injEq _ _).mp hr).symm, by omega, ?_⟩
            intro e' he' hne
            have hmem' : e' ∈ best :: second :: rtail := by
              have := hperm.mem_iff.mpr he'
              rwa [hs] at this
            rcases List.mem_cons.mp hmem' with h | h
            · exact absurd (by rw [h]) hne
            · have hle2 : scoredLE second e' := by
                rcases List.mem_cons.mp h with h0 | h0
                · rw [h0]
                  exact Or.inr ⟨rfl, le_refl _⟩
                · rw [List.sorted_cons] at hsortedRest
                  exact hsortedRest.1 e' h0
              have := scoredLE_le hle2
              omega
      · rintro ⟨e, hmem, hd, h8, hdom⟩
        have hmemSorted : e ∈ best :: second :: rtail := by
          have := hperm.mem_iff.mpr hmem
          rwa [hs] at this
        have hbest_eq : best = e := by
          rcases List.mem_cons.mp hmemSorted with h | h
          · exact h.symm
          · by_cases hbe : best = e
            · exact hbe
            · exfalso
              have hname : best.1 ≠ e.1 := fun heq =>
                hbe (nodup_fst_inj hfst hmemBest hmem heq)
              have hdb := hdom best hmemBest hname
              have := scoredLE_le (hbestle e h)
              omega
        subst hbest_eq
        have hmem2 : second ∈ scoredList := by
          apply hperm.mem_iff.mp
          rw [hs]
          exact List.mem_cons_of_mem _ (List.mem_cons_self second rtail)
        have hsne : second ≠ best := by
          rw [List.nodup_cons] at hndSorted
          intro h0
          exact hndSorted.1 (by rw [← h0]; exact List.mem_cons_self second rtail)
        have hname2 : second.1 ≠ best.1 := fun heq =>
          hsne (nodup_fst_inj hfst hmem2 hmemBest heq)
        have := hdom second hmem2 hname2
        simp only [selectBest, hs]
        rw [if_neg (by omega : ¬ best.2 < 8), if_neg (by omega), hd]

/-- C9: with no explicit user override and no applicable plan skill
tag, the router yields no decision on an empty normalised context, and
otherwise returns a decision for exactly one skill: the one scoring at
least 8 over the normalised lowercased context while exceeding every
other skill's score by at least 2 (a tie on top means no decision, so
the alphabetical sort tie-break never selects a tied skill); and the
score is exactly the specification's formula — 12 for a whole-name
substring match, 2 per name token of length ≥ 3 found in the context,
15 per matching quoted trigger phrase, 1 per description keyword
hit. -/
theorem C9_skill_routing (userOverride : List SkillMeta → String → Option String)
    (planTagParse : String → Option (String × String))
    (orac : String → String → Bool)
    (skills : List SkillMeta) (userMessage planHint : String)
    (hnames : (skills.map SkillMeta.Name).Nodup)
    (hu : userOverride skills (trimGo userMessage) = none)
    (hp : ∀ ps pt, planTagParse (trimGo planHint) = some (ps, pt) →
      skillExists skills ps = false) :
    (normalizeForMatch (trimGo userMessage ++ " " ++ trimGo planHint) = "" →
      routeSkill userOverride planTagParse orac skills userMessage planHint = none) ∧
    (∀ d, routeSkill userOverride planTagParse orac skills userMessage planHint = some d ↔
      (normalizeForMatch (trimGo userMessage ++ " " ++ trimGo planHint) ≠ "" ∧
       ∃ sk ∈ skills,
         d = mkScoredDecision (sk.Name, scoreSkill orac sk
           (normalizeForMatch (trimGo userMessage ++ " " ++ trimGo planHint))) ∧
         8 ≤ scoreSkill orac sk
           (normalizeForMatch (trimGo userMessage ++ " " ++ trimGo planHint)) ∧
         ∀ other ∈ skills, other.Name ≠ sk.Name →
           scoreSkill orac other
               (normalizeForMatch (trimGo userMessage ++ " " ++ trimGo planHint)) + 2 ≤
             scoreSkill orac sk
               (normalizeForMatch (trimGo userMessage ++ " " ++ trimGo planHint)))) ∧
    (∀ sk ctx, scoreSkill orac sk ctx = scoreSkillSpec orac sk ctx) := by
  have hred : routeSkill userOverride planTagParse orac skills userMessage planHint =
      routeScored orac skills (trimGo userMessage) (trimGo planHint) := by
    simp only [routeSkill, hu]
    rcases hpt : planTagParse (trimGo planHint) with _ | ⟨ps, pt⟩
    · rfl
    · simp [hp ps pt hpt]
  refine ⟨?_, ?_, fun sk ctx => scoreSkill_eq_spec orac sk ctx⟩
  · intro hempty
    rw [hred]
    simp [routeScored, hempty]
  · intro d
    rw [hred]
    by_cases hctx : normalizeForMatch (trimGo userMessage ++ " " ++ trimGo planHint) = ""
    · simp [routeScored, hctx]
    · have hfst : ((skills.map (fun sk => (sk.Name, scoreSkill orac sk
          (normalizeForMatch (trimGo userMessage ++ " " ++ trimGo planHint))))).map
            Prod.fst).Nodup := by
        rw [List.map_map]
        exact hnames
      have hsel := selectBest_spec (skills.map (fun sk => (sk.Name, scoreSkill orac sk
        (normalizeForMatch (trimGo userMessage ++ " " ++ trimGo planHint))))) hfst d
      have hrs : routeScored orac skills (trimGo userMessage) (trimGo planHint) =
          selectBest (skills.map (fun sk => (sk.Name, scoreSkill orac sk
            (normalizeForMatch (trimGo userMessage ++ " " ++ trimGo planHint))))) := by
        simp [routeScored, hctx]
      rw [hrs, hsel]
      constructor
      · rintro ⟨e, hmem, hd, h8, hdom⟩
        obtain ⟨sk, hsk, rfl⟩ := List.mem_map.mp hmem
        refine ⟨hctx, sk, hsk, hd, h8, ?_⟩
        intro other hother hne
        exact hdom (other.Name, scoreSkill orac other
          (normalizeForMatch (trimGo userMessage ++ " " ++ trimGo planHint)))
          (List.mem_map.mpr ⟨other, hother, rfl⟩) hne
      · rintro ⟨_, sk, hsk, hd, h8, hdom⟩
        refine ⟨(sk.Name, scoreSkill orac sk
          (normalizeForMatch (trimGo userMessage ++ " " ++ trimGo planHint))),
          List.mem_map.mpr ⟨sk, hsk, rfl⟩, hd, h8, ?_⟩
        intro e' he' hne
        obtain ⟨other, hother, rfl⟩ := List.mem_map.mp he'
        exact hdom other hother hne

/-- A demo skill whose name matches the witness context. -/
def skChapterWrite : SkillMeta := { Name := "chapter-write", Description := "write chapters" }

/-- A demo skill unrelated to the witness context. -/
def skPoetry : SkillMeta := { Name := "poetry" }

/-- C9 (witness): on the context `please chapter-write now` the router
picks `chapter-write` with score 17 = 12 (whole name) + 2 + 2 (name
tokens) + 1 (keyword), while `poetry` scores 0. -/
theorem C9_skill_routing_witness :
    routeSkill (fun _ _ => none) (fun _ => none) (fun _ _ => false)
      [skChapterWrite, skPoetry] "please chapter-write now" "" =
      some { Skill := "chapter-write", Source := "auto", Locked := false,
             Reason := "scored_match", Score := 17 } := by
  have h := C9_skill_routing (fun _ _ => none) (fun _ => none) (fun _ _ => false)
    [skChapterWrite, skPoetry] "please chapter-write now" "" (by decide) rfl
    (fun ps pt h0 => by cases h0)
  refine (h.2.1 _).mpr ⟨by decide, skChapterWrite, List.mem_cons_self _ _, by decide,
    by decide, by decide⟩

end AgentSea
